import Mathlib

/-!
# ASCII dungeon generator (adungeon.c / adungeon_interactive.c)

A shallow embedding of the tile-growth core shared by the two program variants
(`touches_existing`, `place_block`, `idx`, `push`, the seed placement and the growth
loop of `main`), followed by theorems about it.

Conventions of the embedding:

* C `int` values are modelled by `Int`; `/` and `%` are the truncating `Int.tdiv` and
  `Int.tmod`.  Every integer of a run stays far below `2^31`, so no wrap-around is modelled.
* The global arrays (`A2`, `seen`, the frontier buffer) are total maps from indices to
  values, and every access goes through a checked accessor that yields `none` when the
  index lies outside the allocated extent (undefined behaviour in C).  A computation that
  returns `some _` therefore performed only in-range accesses.
* `rand()` is modelled by an arbitrary stream `rng : Nat → Nat` together with the number
  `rc` of draws made so far.
* The state carries a ghost history `trace` of the calls made (newest first).  It is only
  ever extended; no program decision reads it.
* The budget and the probability enter the growth loop as parameters `max_blocks` and
  `place_prob`; how each variant obtains them from its arguments or prompts is modelled
  separately (`batch_max_blocks`, `interactive_place_prob`, ...).  A run is one in which
  both buffers were allocated (the early `return 1` of `main` on a failed `malloc` is not
  modelled).
* Output is modelled as the list of characters written: `print_all` for the batch variant,
  `flush_to_file` for the interactive one; `printf` of a number is its decimal `toString`.
-/

namespace ADungeon

/-! ## Constants and data model -/

abbrev A1_H : Int := 8
abbrev A1_W : Int := 13
abbrev A2_N : Int := 225
abbrev TILE : Int := 4

/-- Number of `Pos` slots allocated for the frontier buffer: `1u << 20`. -/
abbrev FRONT_CAP : Int := 1048576

structure Pos where
  x : Int
  y : Int
deriving DecidableEq, Repr

/-- A two-dimensional `int` array, indexed `[row][column]`. -/
abbrev Grid := Int → Int → Int

/-- Ghost events recorded in the history of a run. -/
inductive Ev where
  | pushed (p : Pos)
  | popped (p : Pos)
  | touches (p : Pos)
  | placed (p : Pos)
deriving DecidableEq, Repr

/-- Program state: the globals of the C file, the locals of `main` that live across the
growth loop (`placed`, `A3`), the number of `rand()` calls made, and the ghost history. -/
structure St where
  A1 : Grid
  A2 : Grid
  front : Int → Pos
  qh : Int
  qt : Int
  seen : Int → Int
  gridW : Int
  gridH : Int
  placed : Int
  A3 : Grid
  rc : Nat
  trace : List Ev

/-! ## Helpers -/

def clamp (v lo hi : Int) : Int :=
  if v < lo then lo else (if v > hi then hi else v)

def in_bounds_block (x y : Int) : Bool :=
  decide (x ≥ 0) && decide (y ≥ 0) && decide (x + TILE ≤ A2_N) && decide (y + TILE ≤ A2_N)

def aligned (v : Int) : Bool :=
  decide (Int.tmod (v - 5) TILE = 0)

/-- The values `0, 1, ..., n-1` taken by a loop counter `for (int i = 0; i < n; ++i)`. -/
def upto (n : Int) : List Int :=
  (List.range n.toNat).map Int.ofNat

/-- The `(r, c)` pairs visited, in order, by a loop over `r < h` with an inner loop over
`c < w`. -/
def loop_rc (h w : Int) : List (Int × Int) :=
  (upto h).flatMap fun r => (upto w).map fun c => (r, c)

/-! ## Checked memory accesses -/

def rdA2 (g : Grid) (i j : Int) : Option Int :=
  if 0 ≤ i ∧ i < A2_N ∧ 0 ≤ j ∧ j < A2_N then some (g i j) else none

def wrA2 (g : Grid) (i j v : Int) : Option Grid :=
  if 0 ≤ i ∧ i < A2_N ∧ 0 ≤ j ∧ j < A2_N then
    some (fun i2 j2 => if i2 = i ∧ j2 = j then v else g i2 j2)
  else none

/-- Read of `seen[k]`; the buffer was allocated with `gridW * gridH` bytes. -/
def rdSeen (s : St) (k : Int) : Option Int :=
  if 0 ≤ k ∧ k < s.gridW * s.gridH then some (s.seen k) else none

def wrSeen (s : St) (k v : Int) : Option St :=
  if 0 ≤ k ∧ k < s.gridW * s.gridH then
    some { s with seen := fun k2 => if k2 = k then v else s.seen k2 }
  else none

def rdFront (s : St) (i : Int) : Option Pos :=
  if 0 ≤ i ∧ i < FRONT_CAP then some (s.front i) else none

def wrFront (s : St) (i : Int) (p : Pos) : Option St :=
  if 0 ≤ i ∧ i < FRONT_CAP then
    some { s with front := fun i2 => if i2 = i then p else s.front i2 }
  else none

/-! ## Random source, pattern generator, tile sampler -/

/-- One call of `rand()`: the next value of the stream, as a non-negative `int`. -/
def rand (rng : Nat → Nat) (s : St) : Int × St :=
  ((rng s.rc : Int), { s with rc := s.rc + 1 })

/-- Body of the inner loop of `gen_A1`: `A1[r][c] = 1 + (rand() % 4)`. -/
def gen_A1_cell (rng : Nat → Nat) (s : St) (rc : Int × Int) : St :=
  let d := rand rng s
  { d.2 with A1 := fun r2 c2 =>
      if r2 = rc.1 ∧ c2 = rc.2 then 1 + Int.tmod d.1 4 else d.2.A1 r2 c2 }

def gen_A1 (rng : Nat → Nat) (s : St) : St :=
  (loop_rc A1_H A1_W).foldl (gen_A1_cell rng) s

/-- Body of the inner loop of `sample_A3_from_A1`: `A3[r][c] = A1[r0 + r][c0 + c]`. -/
def sample_cell (r0 c0 : Int) (s : St) (rc : Int × Int) : St :=
  { s with A3 := fun r2 c2 =>
      if r2 = rc.1 ∧ c2 = rc.2 then s.A1 (r0 + rc.1) (c0 + rc.2) else s.A3 r2 c2 }

def sample_A3_from_A1 (rng : Nat → Nat) (s : St) : St :=
  let d1 := rand rng s
  let r0 := Int.tmod d1.1 (A1_H - TILE + 1)
  let d2 := rand rng d1.2
  let c0 := Int.tmod d2.1 (A1_W - TILE + 1)
  (loop_rc TILE TILE).foldl (sample_cell r0 c0) d2.2

/-! ## Adjacency test -/

/-- A scan loop `for (...) if (A2[i][j] != 0) return 1;` over the given cells, in order:
`some true` when the loop returns 1, `some false` when it runs to its end. -/
def scan_nonzero (g : Grid) : List (Int × Int) → Option Bool
  | [] => some false
  | (i, j) :: rest =>
    match rdA2 g i j with
    | none => none
    | some v => if v ≠ 0 then some true else scan_nonzero g rest

/-- Sequencing of a scan loop with the rest of `touches_existing`: an early `return 1`
skips the continuation. -/
def ret1_or (b : Option Bool) (k : Option Int) : Option Int :=
  match b with
  | none => none
  | some true => some 1
  | some false => k

def touches_existing (g : Grid) (x y : Int) : Option Int :=
  ret1_or (scan_nonzero g ((loop_rc TILE TILE).map fun rc => (y + rc.1, x + rc.2))) <|
  ret1_or (if x - 1 ≥ 0 then
      scan_nonzero g ((upto TILE).map fun r => (y + r, x - 1)) else some false) <|
  ret1_or (if x + TILE < A2_N then
      scan_nonzero g ((upto TILE).map fun r => (y + r, x + TILE)) else some false) <|
  ret1_or (if y - 1 ≥ 0 then
      scan_nonzero g ((upto TILE).map fun c => (y - 1, x + c)) else some false) <|
  ret1_or (if y + TILE < A2_N then
      scan_nonzero g ((upto TILE).map fun c => (y + TILE, x + c)) else some false) <|
  some 0

/-! ## Placement -/

/-- Body of the inner loop of `place_block`:
`if (A2[y + r][x + c] == 0) A2[y + r][x + c] = A3[r][c];`. -/
def place_cell (x y : Int) (A3 : Grid) (g : Grid) (rc : Int × Int) : Option Grid :=
  match rdA2 g (y + rc.1) (x + rc.2) with
  | none => none
  | some v => if v = 0 then wrA2 g (y + rc.1) (x + rc.2) (A3 rc.1 rc.2) else some g

/-- Runs a loop body over the given iterations, stopping at the first failed access. -/
def loopM {σ ι : Type} (body : σ → ι → Option σ) : List ι → σ → Option σ
  | [], s => some s
  | i :: rest, s =>
    match body s i with
    | none => none
    | some s2 => loopM body rest s2

def place_block (g : Grid) (x y : Int) (A3 : Grid) : Option Grid :=
  loopM (place_cell x y A3) (loop_rc TILE TILE) g

/-! ## Frontier queue and seen grid -/

def idx (s : St) (x y : Int) : Int :=
  let gx := Int.tdiv (x - 5) TILE
  let gy := Int.tdiv (y - 5) TILE
  if gx < 0 ∨ gy < 0 ∨ gx ≥ s.gridW ∨ gy ≥ s.gridH then -1
  else gy * s.gridW + gx

def push (s : St) (x y : Int) : Option St :=
  if !in_bounds_block x y || !aligned x || !aligned y then some s
  else
    let k := idx s x y
    if k < 0 then some s
    else
      match rdSeen s k with
      | none => none
      | some v =>
        if v ≠ 0 then some s
        else
          match wrSeen s k 1 with
          | none => none
          | some s1 =>
            match wrFront s1 s1.qt ⟨x, y⟩ with
            | none => none
            | some s2 => some { s2 with qt := s2.qt + 1, trace := Ev.pushed ⟨x, y⟩ :: s2.trace }

/-- The three statements that open an iteration of the growth loop, given the value
`draw` returned by `rand()`:
`pick = qh + draw % (qt - qh); cur = front[pick]; front[pick] = front[qh++];`.
Returns `cur` and the new state. -/
def pop (draw : Int) (s : St) : Option (Pos × St) :=
  if s.qt - s.qh = 0 then none
  else
    let pick := s.qh + Int.tmod draw (s.qt - s.qh)
    match rdFront s pick with
    | none => none
    | some cur =>
      match rdFront s s.qh with
      | none => none
      | some hd =>
        match wrFront s pick hd with
        | none => none
        | some s1 => some (cur, { s1 with qh := s1.qh + 1, trace := Ev.popped cur :: s1.trace })

/-! ## Growth driver -/

/-- The state in which `main` starts generating: all globals zero-initialised. -/
def St.zero : St :=
  { A1 := fun _ _ => 0, A2 := fun _ _ => 0, front := fun _ => ⟨0, 0⟩, qh := 0, qt := 0,
    seen := fun _ => 0, gridW := 0, gridH := 0, placed := 0, A3 := fun _ _ => 0,
    rc := 0, trace := [] }

/-- Placement of one block by the driver: `sample_A3_from_A1(A3); place_block(x, y, A3);
placed++;`. -/
def place_at (rng : Nat → Nat) (s : St) (p : Pos) : Option St :=
  let s1 := sample_A3_from_A1 rng s
  match place_block s1.A2 p.x p.y s1.A3 with
  | none => none
  | some g => some { s1 with A2 := g, placed := s1.placed + 1, trace := Ev.placed p :: s1.trace }

/-- Four consecutive `push` calls. -/
def push4 (s : St) (p1 p2 p3 p4 : Pos) : Option St :=
  (push s p1.x p1.y).bind fun s1 =>
  (push s1 p2.x p2.y).bind fun s2 =>
  (push s2 p3.x p3.y).bind fun s3 =>
  push s3 p4.x p4.y

/-- Everything `main` does from `gen_A1()` up to the growth loop: pattern generation,
clearing of `A2`, allocation of the (zeroed) seen grid, the seed block at (5,5), the seed
marked seen, and its four neighbours pushed. -/
def main_init (rng : Nat → Nat) : Option St :=
  let s0 := gen_A1 rng St.zero
  let s1 := { s0 with A2 := fun _ _ => 0 }
  let s2 := { s1 with gridW := Int.tdiv (A2_N - 5 + TILE - 1) TILE,
                      gridH := Int.tdiv (A2_N - 5 + TILE - 1) TILE }
  let s3 := { s2 with seen := fun _ => 0, placed := 0 }
  (place_at rng s3 ⟨5, 5⟩).bind fun s4 =>
  let k0 := idx s4 5 5
  (if k0 ≥ 0 then wrSeen s4 k0 1 else some s4).bind fun s5 =>
  push4 s5 ⟨5 + TILE, 5⟩ ⟨5, 5 + TILE⟩ ⟨5 - TILE, 5⟩ ⟨5, 5 - TILE⟩

/-- The loop condition `qh < qt && placed < max_blocks`. -/
def loop_cond (max_blocks : Int) (s : St) : Bool :=
  decide (s.qh < s.qt) && decide (s.placed < max_blocks)

/-- The accepted branch of an iteration: place a block at `cur` and push its neighbours. -/
def grow (rng : Nat → Nat) (s : St) (cur : Pos) : Option St :=
  (place_at rng s cur).bind fun s1 =>
  push4 s1 ⟨cur.x + TILE, cur.y⟩ ⟨cur.x - TILE, cur.y⟩ ⟨cur.x, cur.y + TILE⟩
    ⟨cur.x, cur.y - TILE⟩

/-- The gate `(rand() % 100) < place_prob && touches_existing(cur.x, cur.y)` followed by
the conditional body; `touches_existing` is only called when the roll succeeds. -/
def gate (rng : Nat → Nat) (place_prob : Int) (s : St) (cur : Pos) : Option St :=
  let d := rand rng s
  if Int.tmod d.1 100 < place_prob then
    match touches_existing d.2.A2 cur.x cur.y with
    | none => none
    | some t =>
      let s1 := { d.2 with trace := Ev.touches cur :: d.2.trace }
      if t ≠ 0 then grow rng s1 cur else some s1
  else some d.2

/-- One iteration of the growth loop. -/
def loop_body (rng : Nat → Nat) (place_prob : Int) (s : St) : Option St :=
  let d := rand rng s
  match pop d.1 d.2 with
  | none => none
  | some (cur, s1) => gate rng place_prob s1 cur

/-- The growth loop `while (qh < qt && placed < max_blocks) { ... }`, cut off after
`fuel` iterations. -/
def growth_loop (rng : Nat → Nat) (max_blocks place_prob : Int) : Nat → St → Option St
  | 0, s => some s
  | n + 1, s =>
    if loop_cond max_blocks s then
      match loop_body rng place_prob s with
      | none => none
      | some s1 => growth_loop rng max_blocks place_prob n s1
    else some s

/-- The state of a run after at most `n` iterations of the growth loop (the state at loop
exit once the loop has ended). -/
def state_at (rng : Nat → Nat) (max_blocks place_prob : Int) (n : Nat) : Option St :=
  (main_init rng).bind (growth_loop rng max_blocks place_prob n)

/-! ## Projections of the ghost history -/

def pushedOf : List Ev → List Pos
  | [] => []
  | Ev.pushed p :: t => p :: pushedOf t
  | _ :: t => pushedOf t

def poppedOf : List Ev → List Pos
  | [] => []
  | Ev.popped p :: t => p :: poppedOf t
  | _ :: t => poppedOf t

def touchedOf : List Ev → List Pos
  | [] => []
  | Ev.touches p :: t => p :: touchedOf t
  | _ :: t => touchedOf t

def placedOf : List Ev → List Pos
  | [] => []
  | Ev.placed p :: t => p :: placedOf t
  | _ :: t => placedOf t

/-- The unprocessed range of the frontier buffer, `front[qh], ..., front[qt - 1]`. -/
def queue (s : St) : List Pos :=
  (upto (s.qt - s.qh)).map fun i => s.front (s.qh + i)


/-! ## Vocabulary of the statements -/

/-- The cell `[i][j]` lies inside the 225 x 225 grid. -/
def in_grid (i j : Int) : Prop := 0 ≤ i ∧ i < A2_N ∧ 0 ≤ j ∧ j < A2_N

instance (i j : Int) : Decidable (in_grid i j) := by
  unfold in_grid; infer_instance

/-- The all-zero grid, as left by `memset(A2, 0, sizeof(A2))`. -/
def grid_zero : Grid := fun _ _ => 0

/-- A grid (or stamp) holding tile code 1 everywhere. -/
def grid_ones : Grid := fun _ _ => 1

/-- A valid aligned position in the wording of the specification: both coordinates
congruent to 5 modulo 4 and the 4x4 footprint inside the grid. -/
def spec_valid (x y : Int) : Prop :=
  x % 4 = 5 % 4 ∧ y % 4 = 5 % 4 ∧ 0 ≤ x ∧ x + 4 ≤ 225 ∧ 0 ≤ y ∧ y + 4 ≤ 225

instance (x y : Int) : Decidable (spec_valid x y) := by
  unfold spec_valid; infer_instance

/-- The position has a slot in the seen grid and that slot is set. -/
def marked (s : St) (x y : Int) : Prop :=
  0 ≤ idx s x y ∧ s.seen (idx s x y) ≠ 0

instance (s : St) (x y : Int) : Decidable (marked s x y) := by
  unfold marked; infer_instance

/-- The lattice of positions `(5 + 4i, 5 + 4j)` with `0 ≤ i, j < 55`. -/
def on_lattice (p : Pos) : Prop :=
  (5 ≤ p.x ∧ p.x ≤ 221 ∧ p.x % 4 = 1) ∧ (5 ≤ p.y ∧ p.y ≤ 221 ∧ p.y % 4 = 1)

instance (p : Pos) : Decidable (on_lattice p) := by
  unfold on_lattice; infer_instance

/-- Index of a lattice position in the 55 x 55 seen grid. -/
def cell_of (p : Pos) : Int :=
  (p.y - 5) / 4 * 55 + (p.x - 5) / 4

/-- The state reached by a `push` that passes all its guards: slot marked, position
stored at the tail, tail advanced. -/
def push_ok (s : St) (x y : Int) : St :=
  { s with
    seen := fun k2 => if k2 = cell_of ⟨x, y⟩ then 1 else s.seen k2,
    front := fun i2 => if i2 = s.qt then ⟨x, y⟩ else s.front i2,
    qt := s.qt + 1,
    trace := Ev.pushed ⟨x, y⟩ :: s.trace }

/-- The state left by the pop step when the slot at offset `d` from the head is picked. -/
def pop_ok (s : St) (d : Int) : St :=
  { s with
    front := fun i2 => if i2 = s.qh + d then s.front s.qh else s.front i2,
    qh := s.qh + 1,
    trace := Ev.popped (s.front (s.qh + d)) :: s.trace }

/-- The state left by `place_at` when `place_block` produced the grid `g2`. -/
def place_ok (rng : Nat → Nat) (s : St) (p : Pos) (g2 : Grid) : St :=
  { s with
    rc := s.rc + 2,
    A3 := (sample_A3_from_A1 rng s).A3,
    A2 := g2,
    placed := s.placed + 1,
    trace := Ev.placed p :: s.trace }

/-- A freshly allocated state with the seen grid dimensioned as `main` does, empty queue,
nothing seen. -/
def st55 : St :=
  { St.zero with gridW := 55, gridH := 55 }

/-- The seed position. -/
def seed : Pos := ⟨5, 5⟩

/-- Position `p` is one of the four axis-aligned lattice neighbours of `q`. -/
def is_nbr (q p : Pos) : Prop :=
  (p.x = q.x + 4 ∧ p.y = q.y) ∨ (p.x = q.x - 4 ∧ p.y = q.y) ∨
  (p.x = q.x ∧ p.y = q.y + 4) ∨ (p.x = q.x ∧ p.y = q.y - 4)

/-- The cell `[i][j]` belongs to the 4x4 footprint of a block placed at `p`. -/
def in_footprint (p : Pos) (i j : Int) : Prop :=
  (p.y ≤ i ∧ i < p.y + 4) ∧ (p.x ≤ j ∧ j < p.x + 4)

instance (p : Pos) (i j : Int) : Decidable (in_footprint p i j) := by
  unfold in_footprint; infer_instance

instance (q p : Pos) : Decidable (is_nbr q p) := by
  unfold is_nbr; infer_instance

/-- The 55 x 55 lattice positions as a finite set. -/
@[irreducible]
def lattice : Finset Pos :=
  ((Finset.range 55) ×ˢ (Finset.range 55)).image
    fun ij => (⟨5 + 4 * (ij.1 : Int), 5 + 4 * (ij.2 : Int)⟩ : Pos)

/-- Queue and seen-grid part of the loop invariant. -/
structure QInv (s : St) : Prop where
  gridW : s.gridW = 55
  gridH : s.gridH = 55
  qh_nonneg : 0 ≤ s.qh
  qh_le : s.qh ≤ s.qt
  qt_len : s.qt = (pushedOf s.trace).length
  nodup : (pushedOf s.trace).Nodup
  lat : ∀ p ∈ pushedOf s.trace, on_lattice p ∧ p ≠ seed
  seen_iff : ∀ p, on_lattice p →
    (s.seen (cell_of p) ≠ 0 ↔ p = seed ∨ p ∈ pushedOf s.trace)
  perm : List.Perm (queue s ++ poppedOf s.trace) (pushedOf s.trace)

/-- Grid part of the loop invariant. -/
structure GInv (s : St) : Prop where
  placed_len : s.placed = (placedOf s.trace).length
  placed_nodup : (placedOf s.trace).Nodup
  placed_lat : ∀ p ∈ placedOf s.trace, on_lattice p
  seed_placed : seed ∈ placedOf s.trace
  A1_range : ∀ r c, 0 ≤ r → r < 8 → 0 ≤ c → c < 13 → 1 ≤ s.A1 r c ∧ s.A1 r c ≤ 4
  grid_iff : ∀ i j, s.A2 i j ≠ 0 ↔ ∃ p ∈ placedOf s.trace, in_footprint p i j
  grid_val : ∀ i j, 0 ≤ s.A2 i j ∧ s.A2 i j ≤ 4

/-- Part of the loop invariant that links the histories of pushes, pops and placements. -/
structure LInv (s : St) : Prop where
  placed_sub : ∀ p ∈ placedOf s.trace, p = seed ∨ p ∈ poppedOf s.trace
  touched_sub : ∀ p ∈ touchedOf s.trace, p ∈ poppedOf s.trace
  nbr : ∀ p ∈ pushedOf s.trace, ∃ q ∈ placedOf s.trace, is_nbr q p

/-- Every lattice neighbour of a placed block has been seen. -/
def Closed (s : St) : Prop :=
  ∀ q ∈ placedOf s.trace, ∀ p, on_lattice p → is_nbr q p → p = seed ∨ p ∈ pushedOf s.trace

/-- The invariant of the growth loop, holding whenever the loop condition is tested. -/
def Inv (s : St) : Prop :=
  QInv s ∧ GInv s ∧ LInv s ∧ Closed s

/-- What a `push` call leaves untouched, and what it can only extend. -/
structure PushRel (s s2 : St) : Prop where
  placedOf_eq : placedOf s2.trace = placedOf s.trace
  poppedOf_eq : poppedOf s2.trace = poppedOf s.trace
  touchedOf_eq : touchedOf s2.trace = touchedOf s.trace
  A1_eq : s2.A1 = s.A1
  A2_eq : s2.A2 = s.A2
  placed_eq : s2.placed = s.placed
  qh_eq : s2.qh = s.qh
  rc_eq : s2.rc = s.rc
  pushed_mono : ∀ p ∈ pushedOf s.trace, p ∈ pushedOf s2.trace

/-- The frontier entry selected by the iteration that starts in state `s`. -/
def cur_of (rng : Nat → Nat) (s : St) : Pos :=
  s.front (s.qh + (rng s.rc : Int) % (s.qt - s.qh))

/-- The probability roll of the iteration that starts in state `s` passes the gate. -/
def roll_ok (rng : Nat → Nat) (place_prob : Int) (s : St) : Prop :=
  (rng (s.rc + 1) : Int) % 100 < place_prob

/-- Relation between the states before and after one iteration of the growth loop. -/
structure StepRel (rng : Nat → Nat) (place_prob : Int) (s s2 : St) : Prop where
  qh_succ : s2.qh = s.qh + 1
  grid_mono : ∀ i j, s.A2 i j ≠ 0 → s2.A2 i j = s.A2 i j
  popped : poppedOf s2.trace = cur_of rng s :: poppedOf s.trace
  pushed_mono : ∀ p ∈ pushedOf s.trace, p ∈ pushedOf s2.trace
  accept : roll_ok rng place_prob s →
    s2.placed = s.placed + 1 ∧ placedOf s2.trace = cur_of rng s :: placedOf s.trace ∧
    touchedOf s2.trace = cur_of rng s :: touchedOf s.trace ∧
    (∀ i j, s.A2 i j = 0 → in_footprint (cur_of rng s) i j → s2.A2 i j ≠ 0)
  reject : ¬ roll_ok rng place_prob s →
    s2.placed = s.placed ∧ placedOf s2.trace = placedOf s.trace ∧
    touchedOf s2.trace = touchedOf s.trace ∧ pushedOf s2.trace = pushedOf s.trace ∧
    s2.A2 = s.A2 ∧ s2.qt = s.qt

/-- Relation between the states before and after the gated part of an iteration, for the
popped entry `cur` and the outcome `ok` of the probability roll. -/
structure GateRel (cur : Pos) (ok : Prop) (s s2 : St) : Prop where
  qh_eq : s2.qh = s.qh
  grid_mono : ∀ i j, s.A2 i j ≠ 0 → s2.A2 i j = s.A2 i j
  popped_eq : poppedOf s2.trace = poppedOf s.trace
  pushed_mono : ∀ p ∈ pushedOf s.trace, p ∈ pushedOf s2.trace
  accept : ok →
    s2.placed = s.placed + 1 ∧ placedOf s2.trace = cur :: placedOf s.trace ∧
    touchedOf s2.trace = cur :: touchedOf s.trace ∧
    (∀ i j, s.A2 i j = 0 → in_footprint cur i j → s2.A2 i j ≠ 0)
  reject : ¬ ok →
    s2.placed = s.placed ∧ placedOf s2.trace = placedOf s.trace ∧
    touchedOf s2.trace = touchedOf s.trace ∧ pushedOf s2.trace = pushedOf s.trace ∧
    s2.A2 = s.A2 ∧ s2.qt = s.qt

/-- The state of `main` just before the seed block is placed, for a source pattern `F`
produced with `n` draws: grid cleared, seen grid allocated and zeroed, queue empty. -/
def pre_seed (F : Grid) (n : Nat) : St :=
  { A1 := F, A2 := fun _ _ => 0, front := fun _ => ⟨0, 0⟩, qh := 0, qt := 0,
    seen := fun _ => 0, gridW := 55, gridH := 55, placed := 0, A3 := fun _ _ => 0,
    rc := n, trace := [] }

/-- The state after the seed block has been placed and marked seen. -/
def seeded (rng : Nat → Nat) (F : Grid) (n : Nat) (g2 : Grid) : St :=
  { place_ok rng (pre_seed F n) seed g2 with
    seen := fun k2 => if k2 = 0 then 1 else 0 }

/-- A constant random stream, used to instantiate statements about runs. -/
def rng_const : Nat → Nat := fun _ => 0

/-! ## Argument and prompt handling

`atoi` belongs to the C library; the handling code is modelled on its result.  An argument
is `none` when the command-line argument is absent (batch variant) or when `fgets` returned
no line (interactive variant), and `some v` when `atoi` of the text is `v`. -/

/-- The helper `clampi` of the interactive variant. -/
def clampi (v lo hi : Int) : Int :=
  if v < lo then lo else (if v > hi then hi else v)

/-- Batch variant: `int max_blocks = 1200; if (argc > 1) max_blocks = atoi(argv[1]);`. -/
def batch_max_blocks (arg1 : Option Int) : Int :=
  match arg1 with
  | some v => v
  | none => 1200

/-- Batch variant: `int place_prob = 70; if (argc > 2) place_prob = atoi(argv[2]);
place_prob = clamp(place_prob, 0, 100);`. -/
def batch_place_prob (arg2 : Option Int) : Int :=
  clamp (match arg2 with
    | some v => v
    | none => 70) 0 100

/-- Interactive variant: `int max_blocks = 1200; if (fgets(...)) { int tmp = atoi(line);
if (tmp > 0) max_blocks = tmp; }`. -/
def interactive_max_blocks (line : Option Int) : Int :=
  match line with
  | some tmp => if tmp > 0 then tmp else 1200
  | none => 1200

/-- Interactive variant: `int place_prob = 70; if (fgets(...)) { int tmp = atoi(line);
place_prob = clampi(tmp, 0, 100); }`. -/
def interactive_place_prob (line : Option Int) : Int :=
  match line with
  | some tmp => clampi tmp 0 100
  | none => 70

/-! ## Renderers -/

/-- The table `const char lut[5]` of the batch variant. -/
def lut : List Char := ['#', '.', ',', ':', ';']

/-- The character the batch variant prints for a cell: `(v >= 0 && v <= 4) ? lut[v] : '?'`. -/
def glyph (v : Int) : Char :=
  if v ≥ 0 ∧ v ≤ 4 then lut.getD v.toNat '?' else '?'

/-- The header written by both variants, `"# seed=%u blocks=%d prob=%d%%\n"`, without its
final newline. -/
def header_text (seed : Nat) (placed place_prob : Int) : List Char :=
  ("# seed=" ++ toString seed ++ " blocks=" ++ toString placed ++ " prob=" ++
    toString place_prob ++ "%").toList

/-- One row of the map as the batch variant prints it, without the final newline. -/
def print_row (g : Grid) (y : Int) : List Char :=
  (upto A2_N).map fun x => glyph (g y x)

/-- The two nested print loops of the batch variant. -/
def print_map (g : Grid) : List Char :=
  (upto A2_N).flatMap fun y => print_row g y ++ ['\n']

/-- Everything the batch variant writes to standard output for a final state. -/
def print_all (seed : Nat) (place_prob : Int) (s : St) : List Char :=
  header_text seed s.placed place_prob ++ ['\n'] ++ print_map s.A2

/-- Standard output of a run of the batch variant whose growth loop is given `fuel`
iterations. -/
def adungeon_stdout (rng : Nat → Nat) (seed : Nat) (max_blocks place_prob : Int)
    (fuel : Nat) : Option (List Char) :=
  (state_at rng max_blocks place_prob fuel).map (print_all seed place_prob)

/-- The character `flush_to_file` writes for a cell:
`if (v == 0) fputc('#', fp); else fputc('0' + v, fp);` (`fputc` converts its argument to
`unsigned char`). -/
def file_char (v : Int) : Char :=
  if v = 0 then '#' else Char.ofNat ((48 + v) % 256).toNat

/-- One row of the file body, without the final newline. -/
def flush_row (g : Grid) (y : Int) : List Char :=
  (upto A2_N).map fun x => file_char (g y x)

/-- The two nested loops of `flush_to_file`. -/
def flush_body (g : Grid) : List Char :=
  (upto A2_N).flatMap fun y => flush_row g y ++ ['\n']

/-- The interactive variant's `flush_to_file`: the contents written to the file, or `none`
when `fopen` fails (`opened = false`), in which case only an error message is printed. -/
def flush_to_file (opened : Bool) (seed : Nat) (placed place_prob : Int) (g : Grid) :
    Option (List Char) :=
  if opened then some (header_text seed placed place_prob ++ ['\n'] ++ flush_body g)
  else none

/-! ## Vocabulary of the statements about rendering and growth -/

/-- All 16 cells of the aligned region with top-left corner `p` are nonzero. -/
def region_full (g : Grid) (p : Pos) : Prop :=
  ∀ rc ∈ loop_rc TILE TILE, g (p.y + rc.1) (p.x + rc.2) ≠ 0

instance (g : Grid) (p : Pos) : Decidable (region_full g p) := by
  unfold region_full; infer_instance

/-- All 16 cells of the aligned region with top-left corner `p` are zero. -/
def region_empty (g : Grid) (p : Pos) : Prop :=
  ∀ rc ∈ loop_rc TILE TILE, g (p.y + rc.1) (p.x + rc.2) = 0

instance (g : Grid) (p : Pos) : Decidable (region_empty g p) := by
  unfold region_empty; infer_instance

/-- The cells `[row][column]` of the 225 x 225 grid. -/
def grid_cells : Finset (Int × Int) :=
  Finset.Icc 0 224 ×ˢ Finset.Icc 0 224

/-- The 16 cells of the footprint of a block at `p`. -/
def footprint_cells (p : Pos) : Finset (Int × Int) :=
  Finset.Icc p.y (p.y + 3) ×ˢ Finset.Icc p.x (p.x + 3)

/-- A placement history (newest first) that starts with the seed and in which every later
block has a lattice neighbour among the blocks placed before it. -/
def grown_from_seed : List Pos → Prop
  | [] => False
  | [p] => p = seed
  | p :: q :: rest => (∃ r ∈ q :: rest, is_nbr r p) ∧ grown_from_seed (q :: rest)

/-- The state in which an accepted iteration calls `place_block`: the entry has been
popped, both draws have been made and the adjacency test has been recorded. -/
def at_place (rng : Nat → Nat) (s : St) : St :=
  { pop_ok { s with rc := s.rc + 1 } ((rng s.rc : Int) % (s.qt - s.qh)) with
    rc := s.rc + 2,
    trace := Ev.touches (cur_of rng s) ::
      (pop_ok { s with rc := s.rc + 1 } ((rng s.rc : Int) % (s.qt - s.qh))).trace }

/-! # Theorems -/

/-! ## Checked accesses

An access yields a value exactly when its index lies inside the allocated extent, so a
computation that returns `some _` has made no out-of-range access. -/

theorem rdA2_isSome_iff (g : Grid) (i j : Int) : (rdA2 g i j).isSome = true ↔ in_grid i j := by
  unfold rdA2 in_grid
  split_ifs with h
  · simp [h]
  · simp [h]

theorem wrA2_isSome_iff (g : Grid) (i j v : Int) :
    (wrA2 g i j v).isSome = true ↔ in_grid i j := by
  unfold wrA2 in_grid
  split_ifs with h
  · simp [h]
  · simp [h]

theorem rdSeen_isSome_iff (s : St) (k : Int) :
    (rdSeen s k).isSome = true ↔ 0 ≤ k ∧ k < s.gridW * s.gridH := by
  unfold rdSeen
  split_ifs with h
  · simp [h]
  · simp [h]

theorem wrSeen_isSome_iff (s : St) (k v : Int) :
    (wrSeen s k v).isSome = true ↔ 0 ≤ k ∧ k < s.gridW * s.gridH := by
  unfold wrSeen
  split_ifs with h
  · simp [h]
  · simp [h]

theorem rdFront_isSome_iff (s : St) (i : Int) :
    (rdFront s i).isSome = true ↔ 0 ≤ i ∧ i < FRONT_CAP := by
  unfold rdFront
  split_ifs with h
  · simp [h]
  · simp [h]

theorem wrFront_isSome_iff (s : St) (i : Int) (p : Pos) :
    (wrFront s i p).isSome = true ↔ 0 ≤ i ∧ i < FRONT_CAP := by
  unfold wrFront
  split_ifs with h
  · simp [h]
  · simp [h]

/-- The check is effective: a footprint that sticks out of the grid makes the adjacency
test read out of range. -/
theorem touches_existing_out_of_range : touches_existing grid_zero 223 5 = none := by
  decide

/-- Likewise a placement whose footprint sticks out of the grid fails. -/
theorem place_block_out_of_range : (place_block grid_zero 223 5 grid_ones).isSome = false := by
  decide


/-! ## Loop ranges -/

theorem mem_upto (n r : Int) : r ∈ upto n ↔ 0 ≤ r ∧ r < n := by
  unfold upto
  simp only [List.mem_map, List.mem_range]
  constructor
  · rintro ⟨k, hk, rfl⟩
    simp only [Int.ofNat_eq_coe]
    omega
  · rintro ⟨h0, h1⟩
    refine ⟨r.toNat, by omega, ?_⟩
    simp only [Int.ofNat_eq_coe]
    omega

theorem mem_loop_rc (h w r c : Int) :
    (r, c) ∈ loop_rc h w ↔ (0 ≤ r ∧ r < h) ∧ (0 ≤ c ∧ c < w) := by
  unfold loop_rc
  simp only [List.mem_flatMap, List.mem_map, Prod.mk.injEq, mem_upto]
  constructor
  · rintro ⟨a, ha, b, hb, rfl, rfl⟩
    exact ⟨ha, hb⟩
  · rintro ⟨hr, hc⟩
    exact ⟨r, hr, c, hc, rfl, rfl⟩

theorem exists_mem_map_upto (f : Int → Int × Int) (P : Int × Int → Prop) (n : Int) :
    (∃ p ∈ (upto n).map f, P p) ↔ ∃ r, 0 ≤ r ∧ r < n ∧ P (f r) := by
  constructor
  · rintro ⟨p, hp, hP⟩
    obtain ⟨r, hr, rfl⟩ := List.mem_map.1 hp
    exact ⟨r, ((mem_upto n r).1 hr).1, ((mem_upto n r).1 hr).2, hP⟩
  · rintro ⟨r, h0, h1, hP⟩
    exact ⟨f r, List.mem_map.2 ⟨r, (mem_upto n r).2 ⟨h0, h1⟩, rfl⟩, hP⟩

theorem exists_mem_map_loop_rc (f : Int × Int → Int × Int) (P : Int × Int → Prop)
    (h w : Int) :
    (∃ p ∈ (loop_rc h w).map f, P p) ↔
      ∃ r c, 0 ≤ r ∧ r < h ∧ 0 ≤ c ∧ c < w ∧ P (f (r, c)) := by
  constructor
  · rintro ⟨p, hp, hP⟩
    obtain ⟨⟨r, c⟩, hrc, rfl⟩ := List.mem_map.1 hp
    have hm := (mem_loop_rc h w r c).1 hrc
    exact ⟨r, c, hm.1.1, hm.1.2, hm.2.1, hm.2.2, hP⟩
  · rintro ⟨r, c, h0, h1, h2, h3, hP⟩
    exact ⟨f (r, c), List.mem_map.2 ⟨(r, c), (mem_loop_rc h w r c).2 ⟨⟨h0, h1⟩, h2, h3⟩, rfl⟩, hP⟩

/-! ## Adjacency test -/

theorem scan_nonzero_eq (g : Grid) (L : List (Int × Int))
    (hL : ∀ p ∈ L, (0 ≤ p.1 ∧ p.1 < A2_N) ∧ (0 ≤ p.2 ∧ p.2 < A2_N)) :
    scan_nonzero g L = some (decide (∃ p ∈ L, g p.1 p.2 ≠ 0)) := by
  induction L with
  | nil => simp [scan_nonzero]
  | cons p rest ih =>
    obtain ⟨i, j⟩ := p
    have hp := hL (i, j) (List.mem_cons_self _ _)
    have hrest := ih (fun q hq => hL q (List.mem_cons_of_mem _ hq))
    simp only [scan_nonzero, rdA2]
    rw [if_pos (by simpa using ⟨hp.1.1, hp.1.2, hp.2.1, hp.2.2⟩)]
    by_cases hv : g i j = 0
    · simp [hv, hrest]
    · simp [hv]

theorem scan_col (g : Grid) (y j : Int) (hy0 : 0 ≤ y) (hy1 : y + 4 ≤ 225)
    (hj : 0 ≤ j ∧ j < 225) :
    ∃ b, scan_nonzero g ((upto TILE).map fun r => (y + r, j)) = some b ∧
      (b = true ↔ ∃ r, 0 ≤ r ∧ r < 4 ∧ g (y + r) j ≠ 0) := by
  refine ⟨_, scan_nonzero_eq g _ ?_, ?_⟩
  · intro p hp
    obtain ⟨r, hr, rfl⟩ := List.mem_map.1 hp
    have := (mem_upto _ _).1 hr
    simp only [A2_N, TILE] at *
    omega
  · rw [decide_eq_true_iff]
    exact exists_mem_map_upto (fun r => (y + r, j)) (fun p => g p.1 p.2 ≠ 0) TILE

theorem scan_row (g : Grid) (x i : Int) (hx0 : 0 ≤ x) (hx1 : x + 4 ≤ 225)
    (hi : 0 ≤ i ∧ i < 225) :
    ∃ b, scan_nonzero g ((upto TILE).map fun c => (i, x + c)) = some b ∧
      (b = true ↔ ∃ c, 0 ≤ c ∧ c < 4 ∧ g i (x + c) ≠ 0) := by
  refine ⟨_, scan_nonzero_eq g _ ?_, ?_⟩
  · intro p hp
    obtain ⟨r, hr, rfl⟩ := List.mem_map.1 hp
    have := (mem_upto _ _).1 hr
    simp only [A2_N, TILE] at *
    omega
  · rw [decide_eq_true_iff]
    exact exists_mem_map_upto (fun c => (i, x + c)) (fun p => g p.1 p.2 ≠ 0) TILE

theorem scan_footprint (g : Grid) (x y : Int) (hx0 : 0 ≤ x) (hx1 : x + 4 ≤ 225)
    (hy0 : 0 ≤ y) (hy1 : y + 4 ≤ 225) :
    ∃ b, scan_nonzero g ((loop_rc TILE TILE).map fun rc => (y + rc.1, x + rc.2)) = some b ∧
      (b = true ↔ ∃ r c, 0 ≤ r ∧ r < 4 ∧ 0 ≤ c ∧ c < 4 ∧ g (y + r) (x + c) ≠ 0) := by
  refine ⟨_, scan_nonzero_eq g _ ?_, ?_⟩
  · intro p hp
    obtain ⟨⟨r, c⟩, hr, rfl⟩ := List.mem_map.1 hp
    have := (mem_loop_rc _ _ _ _).1 hr
    simp only [A2_N, TILE] at *
    omega
  · rw [decide_eq_true_iff]
    exact exists_mem_map_loop_rc (fun rc => (y + rc.1, x + rc.2)) (fun p => g p.1 p.2 ≠ 0)
      TILE TILE

/-- A guarded border scan of `touches_existing`: `if (guard) for (...) if (...) return 1;`. -/
theorem guarded_scan (g : Grid) (L : List (Int × Int)) (G P : Prop) [Decidable G]
    (h : G → ∃ b, scan_nonzero g L = some b ∧ (b = true ↔ P)) :
    ∃ b, (if G then scan_nonzero g L else some false) = some b ∧ (b = true ↔ G ∧ P) := by
  by_cases hG : G
  · obtain ⟨b, hb, hbP⟩ := h hG
    exact ⟨b, by rw [if_pos hG, hb], by rw [hbP]; tauto⟩
  · exact ⟨false, by rw [if_neg hG], by simp [hG]⟩

/-- Characterisation of `touches_existing` on an in-bounds footprint, in the shape of the
code: each border strip counts only when its guard holds. -/
theorem touches_existing_guarded (g : Grid) (x y : Int)
    (hx0 : 0 ≤ x) (hx1 : x + 4 ≤ 225) (hy0 : 0 ≤ y) (hy1 : y + 4 ≤ 225) :
    ∃ t, touches_existing g x y = some t ∧ (t = 1 ∨ t = 0) ∧
      (t = 1 ↔
        (∃ r c, 0 ≤ r ∧ r < 4 ∧ 0 ≤ c ∧ c < 4 ∧ g (y + r) (x + c) ≠ 0) ∨
        (x - 1 ≥ 0 ∧ ∃ r, 0 ≤ r ∧ r < 4 ∧ g (y + r) (x - 1) ≠ 0) ∨
        (x + 4 < 225 ∧ ∃ r, 0 ≤ r ∧ r < 4 ∧ g (y + r) (x + 4) ≠ 0) ∨
        (y - 1 ≥ 0 ∧ ∃ c, 0 ≤ c ∧ c < 4 ∧ g (y - 1) (x + c) ≠ 0) ∨
        (y + 4 < 225 ∧ ∃ c, 0 ≤ c ∧ c < 4 ∧ g (y + 4) (x + c) ≠ 0)) := by
  obtain ⟨b0, hb0, hP0⟩ := scan_footprint g x y hx0 hx1 hy0 hy1
  obtain ⟨b1, hb1, hP1⟩ := guarded_scan g ((upto TILE).map fun r => (y + r, x - 1))
    (x - 1 ≥ 0) _ (fun hG => scan_col g y (x - 1) hy0 hy1 ⟨hG, by omega⟩)
  obtain ⟨b2, hb2, hP2⟩ := guarded_scan g ((upto TILE).map fun r => (y + r, x + TILE))
    (x + TILE < A2_N) _ (fun hG => scan_col g y (x + TILE) hy0 hy1 ⟨by simp only [TILE]; omega, hG⟩)
  obtain ⟨b3, hb3, hP3⟩ := guarded_scan g ((upto TILE).map fun c => (y - 1, x + c))
    (y - 1 ≥ 0) _ (fun hG => scan_row g x (y - 1) hx0 hx1 ⟨hG, by omega⟩)
  obtain ⟨b4, hb4, hP4⟩ := guarded_scan g ((upto TILE).map fun c => (y + TILE, x + c))
    (y + TILE < A2_N) _ (fun hG => scan_row g x (y + TILE) hx0 hx1 ⟨by simp only [TILE]; omega, hG⟩)
  unfold touches_existing
  rw [hb0, hb1, hb2, hb3, hb4]
  have hP2b : b2 = true ↔ x + 4 < 225 ∧ ∃ r, 0 ≤ r ∧ r < 4 ∧ g (y + r) (x + 4) ≠ 0 := hP2
  have hP4b : b4 = true ↔ y + 4 < 225 ∧ ∃ c, 0 ≤ c ∧ c < 4 ∧ g (y + 4) (x + c) ≠ 0 := hP4
  rw [← hP0, ← hP1, ← hP2b, ← hP3, ← hP4b]
  cases b0 <;> cases b1 <;> cases b2 <;> cases b3 <;> cases b4 <;> simp [ret1_or]

/-- C1. For a position whose 4x4 footprint lies in the grid, `touches_existing` performs
only in-range reads and returns 1 or 0; it returns 1 exactly when a footprint cell is
nonzero or an in-grid cell of one of the four border strips (column x-1, column x+4,
row y-1, row y+4, over the span of the footprint) is nonzero.  The function only reads the
grid: its result carries no grid, so the grid of the caller is unchanged. -/
theorem touches_existing_iff_adjacent (g : Grid) (x y : Int)
    (hx0 : 0 ≤ x) (hx1 : x + 4 ≤ 225) (hy0 : 0 ≤ y) (hy1 : y + 4 ≤ 225) :
    ∃ t, touches_existing g x y = some t ∧ (t = 1 ∨ t = 0) ∧
      (t = 1 ↔
        (∃ r c, 0 ≤ r ∧ r < 4 ∧ 0 ≤ c ∧ c < 4 ∧ g (y + r) (x + c) ≠ 0) ∨
        (∃ r, 0 ≤ r ∧ r < 4 ∧ in_grid (y + r) (x - 1) ∧ g (y + r) (x - 1) ≠ 0) ∨
        (∃ r, 0 ≤ r ∧ r < 4 ∧ in_grid (y + r) (x + 4) ∧ g (y + r) (x + 4) ≠ 0) ∨
        (∃ c, 0 ≤ c ∧ c < 4 ∧ in_grid (y - 1) (x + c) ∧ g (y - 1) (x + c) ≠ 0) ∨
        (∃ c, 0 ≤ c ∧ c < 4 ∧ in_grid (y + 4) (x + c) ∧ g (y + 4) (x + c) ≠ 0)) := by
  have e1 : ∀ j : Int, (∃ r, 0 ≤ r ∧ r < 4 ∧ in_grid (y + r) j ∧ g (y + r) j ≠ 0) ↔
      ((0 ≤ j ∧ j < 225) ∧ ∃ r, 0 ≤ r ∧ r < 4 ∧ g (y + r) j ≠ 0) := by
    intro j
    constructor
    · rintro ⟨r, h0, h1, hg, hv⟩
      exact ⟨⟨hg.2.2.1, hg.2.2.2⟩, r, h0, h1, hv⟩
    · rintro ⟨hj, r, h0, h1, hv⟩
      refine ⟨r, h0, h1, ⟨?_, ?_, hj.1, hj.2⟩, hv⟩ <;> (try simp only [A2_N]) <;> omega
  have e2 : ∀ i : Int, (∃ c, 0 ≤ c ∧ c < 4 ∧ in_grid i (x + c) ∧ g i (x + c) ≠ 0) ↔
      ((0 ≤ i ∧ i < 225) ∧ ∃ c, 0 ≤ c ∧ c < 4 ∧ g i (x + c) ≠ 0) := by
    intro i
    constructor
    · rintro ⟨c, h0, h1, hg, hv⟩
      exact ⟨⟨hg.1, hg.2.1⟩, c, h0, h1, hv⟩
    · rintro ⟨hi, c, h0, h1, hv⟩
      refine ⟨c, h0, h1, ⟨hi.1, hi.2, ?_, ?_⟩, hv⟩ <;> (try simp only [A2_N]) <;> omega
  have q1 : (0 ≤ x - 1 ∧ x - 1 < 225) ↔ x - 1 ≥ 0 := by omega
  have q2 : (0 ≤ x + 4 ∧ x + 4 < 225) ↔ x + 4 < 225 := by omega
  have q3 : (0 ≤ y - 1 ∧ y - 1 < 225) ↔ y - 1 ≥ 0 := by omega
  have q4 : (0 ≤ y + 4 ∧ y + 4 < 225) ↔ y + 4 < 225 := by omega
  obtain ⟨t, ht, h01, hiff⟩ := touches_existing_guarded g x y hx0 hx1 hy0 hy1
  refine ⟨t, ht, h01, ?_⟩
  rw [e1, e1, e2, e2, q1, q2, q3, q4]
  exact hiff

/-- Witness of C1: the empty grid at the seed position. -/
theorem touches_existing_iff_adjacent_witness :
    ((0 : Int) ≤ 5 ∧ (5 : Int) + 4 ≤ 225) ∧
    ∃ t, touches_existing grid_zero 5 5 = some t ∧ (t = 1 ∨ t = 0) ∧
      (t = 1 ↔
        (∃ r c, 0 ≤ r ∧ r < 4 ∧ 0 ≤ c ∧ c < 4 ∧ grid_zero (5 + r) (5 + c) ≠ 0) ∨
        (∃ r, 0 ≤ r ∧ r < 4 ∧ in_grid (5 + r) (5 - 1) ∧ grid_zero (5 + r) (5 - 1) ≠ 0) ∨
        (∃ r, 0 ≤ r ∧ r < 4 ∧ in_grid (5 + r) (5 + 4) ∧ grid_zero (5 + r) (5 + 4) ≠ 0) ∨
        (∃ c, 0 ≤ c ∧ c < 4 ∧ in_grid (5 - 1) (5 + c) ∧ grid_zero (5 - 1) (5 + c) ≠ 0) ∨
        (∃ c, 0 ≤ c ∧ c < 4 ∧ in_grid (5 + 4) (5 + c) ∧ grid_zero (5 + 4) (5 + c) ≠ 0)) :=
  ⟨by decide, touches_existing_iff_adjacent grid_zero 5 5
    (by decide) (by decide) (by decide) (by decide)⟩

/-! ## Placement -/

theorem loopM_place_cell (x y : Int) (A3 : Grid) (L : List (Int × Int))
    (hL : ∀ p ∈ L, (0 ≤ y + p.1 ∧ y + p.1 < 225) ∧ (0 ≤ x + p.2 ∧ x + p.2 < 225)) :
    ∀ g : Grid, ∃ g2, loopM (place_cell x y A3) L g = some g2 ∧
      ∀ i j, g2 i j = if g i j = 0 ∧ (i - y, j - x) ∈ L then A3 (i - y) (j - x) else g i j := by
  induction L with
  | nil => intro g; exact ⟨g, rfl, by simp⟩
  | cons p rest ih =>
    intro g
    obtain ⟨r, c⟩ := p
    have hp := hL (r, c) (List.mem_cons_self _ _)
    have hin : 0 ≤ y + r ∧ y + r < A2_N ∧ 0 ≤ x + c ∧ x + c < A2_N :=
      ⟨hp.1.1, hp.1.2, hp.2.1, hp.2.2⟩
    have ih2 := ih (fun q hq => hL q (List.mem_cons_of_mem _ hq))
    by_cases hv : g (y + r) (x + c) = 0
    · obtain ⟨g2, hg2, hspec⟩ := ih2 (fun i2 j2 => if i2 = y + r ∧ j2 = x + c then A3 r c
        else g i2 j2)
      refine ⟨g2, ?_, ?_⟩
      · simp only [loopM, place_cell, rdA2, wrA2, if_pos hin, hv, if_true]
        exact hg2
      · intro i j
        rw [hspec]
        by_cases hij : i = y + r ∧ j = x + c
        · obtain ⟨rfl, rfl⟩ := hij
          simp [hv]
        · have hne : ¬ (i - y = r ∧ j - x = c) := fun h => hij ⟨by omega, by omega⟩
          simp [hij, hne]
    · obtain ⟨g2, hg2, hspec⟩ := ih2 g
      refine ⟨g2, ?_, ?_⟩
      · simp only [loopM, place_cell, rdA2, if_pos hin, hv, if_false]
        exact hg2
      · intro i j
        rw [hspec]
        by_cases hij : i = y + r ∧ j = x + c
        · obtain ⟨rfl, rfl⟩ := hij
          simp [hv]
        · have hne : ¬ (i - y = r ∧ j - x = c) := fun h => hij ⟨by omega, by omega⟩
          simp [hne]

/-- Closed form of `place_block` on an in-bounds footprint. -/
theorem place_block_eq (g : Grid) (x y : Int) (A3 : Grid)
    (hx0 : 0 ≤ x) (hx1 : x + 4 ≤ 225) (hy0 : 0 ≤ y) (hy1 : y + 4 ≤ 225) :
    ∃ g2, place_block g x y A3 = some g2 ∧
      ∀ i j, g2 i j =
        if g i j = 0 ∧ (y ≤ i ∧ i < y + 4) ∧ (x ≤ j ∧ j < x + 4) then A3 (i - y) (j - x)
        else g i j := by
  obtain ⟨g2, h1, h2⟩ := loopM_place_cell x y A3 (loop_rc TILE TILE) (by
    rintro ⟨r, c⟩ hp
    have := (mem_loop_rc _ _ _ _).1 hp
    simp only [TILE] at this
    simp only
    omega) g
  refine ⟨g2, h1, ?_⟩
  intro i j
  rw [h2]
  have e : ((0 ≤ i - y ∧ i - y < TILE) ∧ (0 ≤ j - x ∧ j - x < TILE)) ↔
      ((y ≤ i ∧ i < y + 4) ∧ (x ≤ j ∧ j < x + 4)) := by
    simp only [TILE]; omega
  refine if_congr ?_ rfl rfl
  rw [mem_loop_rc, e]

/-- C2. On an in-bounds position, `place_block` performs only in-range accesses; afterwards
each footprint cell keeps its old value if that was nonzero and holds the stamp entry
otherwise, and every cell outside the footprint is unchanged. -/
theorem place_block_post_and_frame (g : Grid) (x y : Int) (A3 : Grid)
    (hb : in_bounds_block x y = true) :
    ∃ g2, place_block g x y A3 = some g2 ∧
      (∀ r c, 0 ≤ r → r < 4 → 0 ≤ c → c < 4 →
        g2 (y + r) (x + c) = if g (y + r) (x + c) ≠ 0 then g (y + r) (x + c) else A3 r c) ∧
      (∀ i j, ¬ ((y ≤ i ∧ i < y + 4) ∧ (x ≤ j ∧ j < x + 4)) → g2 i j = g i j) := by
  simp only [in_bounds_block, TILE, A2_N, Bool.and_eq_true, decide_eq_true_eq] at hb
  obtain ⟨g2, h1, h2⟩ := place_block_eq g x y A3 (by omega) (by omega) (by omega) (by omega)
  refine ⟨g2, h1, ?_, ?_⟩
  · intro r c hr0 hr1 hc0 hc1
    rw [h2]
    have e1 : y + r - y = r := by omega
    have e2 : x + c - x = c := by omega
    have e3 : (y ≤ y + r ∧ y + r < y + 4) ∧ (x ≤ x + c ∧ x + c < x + 4) := by omega
    by_cases hv : g (y + r) (x + c) = 0
    · simp [hv, e1, e2, e3]
    · simp [hv]
  · intro i j hout
    rw [h2]
    simp [hout]

/-- Witness of C2: stamping an all-ones tile on the empty grid at the seed position. -/
theorem place_block_post_and_frame_witness :
    in_bounds_block 5 5 = true ∧
    ∃ g2, place_block grid_zero 5 5 grid_ones = some g2 ∧
      (∀ r c, 0 ≤ r → r < 4 → 0 ≤ c → c < 4 →
        g2 (5 + r) (5 + c) =
          if grid_zero (5 + r) (5 + c) ≠ 0 then grid_zero (5 + r) (5 + c)
          else grid_ones r c) ∧
      (∀ i j, ¬ (((5 : Int) ≤ i ∧ i < 5 + 4) ∧ ((5 : Int) ≤ j ∧ j < 5 + 4)) →
        g2 i j = grid_zero i j) :=
  ⟨by decide, place_block_post_and_frame grid_zero 5 5 grid_ones (by decide)⟩

/-! ## Frontier queue: push -/

theorem aligned_iff (v : Int) : aligned v = true ↔ v % 4 = 1 := by
  unfold aligned
  rw [decide_eq_true_iff, ← Int.dvd_iff_tmod_eq_zero, Int.dvd_iff_emod_eq_zero]
  simp only [TILE]
  omega

theorem tdiv_four_of_aligned (v : Int) (h : v % 4 = 1) : Int.tdiv (v - 5) TILE = (v - 5) / 4 := by
  have hd : (4 : Int) ∣ v - 5 := by
    rw [Int.dvd_iff_emod_eq_zero]; omega
  exact Int.tdiv_eq_ediv_of_dvd hd

theorem push_guard (x y : Int) :
    (!in_bounds_block x y || !aligned x || !aligned y) = false ↔
      (0 ≤ x ∧ x ≤ 221 ∧ x % 4 = 1) ∧ (0 ≤ y ∧ y ≤ 221 ∧ y % 4 = 1) := by
  simp only [in_bounds_block, Bool.or_eq_false_iff, Bool.not_eq_false', Bool.and_eq_true,
    decide_eq_true_eq, aligned_iff, TILE, A2_N]
  omega

theorem idx_eq (s : St) (x y : Int) (hW : s.gridW = 55) (hH : s.gridH = 55)
    (hx : 0 ≤ x ∧ x ≤ 221 ∧ x % 4 = 1) (hy : 0 ≤ y ∧ y ≤ 221 ∧ y % 4 = 1) :
    idx s x y = if on_lattice ⟨x, y⟩ then cell_of ⟨x, y⟩ else -1 := by
  unfold idx
  simp only [tdiv_four_of_aligned x hx.2.2, tdiv_four_of_aligned y hy.2.2, hW, hH]
  by_cases hl : on_lattice ⟨x, y⟩
  · rw [if_pos hl]
    unfold on_lattice at hl
    simp only at hl
    rw [if_neg (by omega)]
    rfl
  · rw [if_neg hl]
    unfold on_lattice at hl
    simp only at hl
    rw [if_pos (by omega)]

theorem cell_of_range (p : Pos) (h : on_lattice p) : 0 ≤ cell_of p ∧ cell_of p < 3025 := by
  unfold on_lattice at h
  unfold cell_of
  omega

theorem cell_of_inj (p q : Pos) (hp : on_lattice p) (hq : on_lattice q)
    (h : cell_of p = cell_of q) : p = q := by
  unfold on_lattice at hp hq
  unfold cell_of at h
  obtain ⟨px, py⟩ := p
  obtain ⟨qx, qy⟩ := q
  simp only at hp hq h
  have h1 : px = qx := by omega
  have h2 : py = qy := by omega
  rw [h1, h2]

/-- Closed form of `push` in a state whose seen grid is 55 x 55 and whose tail is inside
the frontier buffer. -/
theorem push_eq (s : St) (x y : Int) (hW : s.gridW = 55) (hH : s.gridH = 55)
    (hq : 0 ≤ s.qt ∧ s.qt < FRONT_CAP) :
    push s x y =
      some (if on_lattice ⟨x, y⟩ ∧ s.seen (cell_of ⟨x, y⟩) = 0 then push_ok s x y else s) := by
  unfold push
  by_cases hg : (!in_bounds_block x y || !aligned x || !aligned y) = false
  · rw [hg]
    obtain ⟨hx, hy⟩ := (push_guard x y).1 hg
    simp only [Bool.false_eq_true, if_false]
    rw [idx_eq s x y hW hH hx hy]
    by_cases hl : on_lattice ⟨x, y⟩
    · have hr := cell_of_range _ hl
      simp only [if_pos hl]
      rw [if_neg (by omega)]
      have hin : 0 ≤ cell_of ⟨x, y⟩ ∧ cell_of ⟨x, y⟩ < s.gridW * s.gridH := by
        rw [hW, hH]; omega
      simp only [rdSeen, if_pos hin]
      by_cases hs : s.seen (cell_of ⟨x, y⟩) = 0
      · simp only [hs, ne_eq, not_true_eq_false, if_false, wrSeen, if_pos hin, wrFront,
          if_pos hq, hl, and_self, if_true]
        rfl
      · simp only [ne_eq, hs, not_false_eq_true, if_true, and_false, if_false]
    · simp only [if_neg hl, hl, false_and, if_false]
      rfl
  · have hl : ¬ on_lattice ⟨x, y⟩ := by
      intro hl
      apply hg
      rw [push_guard]
      unfold on_lattice at hl
      simp only at hl
      omega
    simp only [Bool.not_eq_false] at hg
    simp only [hg, if_true, hl, false_and, if_false]

theorem spec_valid_lattice (x y : Int) :
    (spec_valid x y ∧ 5 ≤ x ∧ 5 ≤ y) ↔ on_lattice ⟨x, y⟩ := by
  unfold spec_valid on_lattice
  simp only
  omega

theorem marked_lattice (s : St) (x y : Int) (hW : s.gridW = 55) (hH : s.gridH = 55)
    (hl : on_lattice ⟨x, y⟩) : marked s x y ↔ s.seen (cell_of ⟨x, y⟩) ≠ 0 := by
  have h := hl
  unfold on_lattice at h
  simp only at h
  unfold marked
  rw [idx_eq s x y hW hH (by omega) (by omega), if_pos hl]
  have := cell_of_range _ hl
  constructor
  · exact fun h => h.2
  · exact fun h => ⟨this.1, h⟩

/-- C3 as stated fails: (1,5) is congruent to 5 modulo 4 in both coordinates, its footprint
lies in the grid, and it is not marked seen in a fresh state, yet `push` rejects it because
`idx` returns -1 for the lattice column -1; the tail does not grow. -/
theorem push_spec_valid_counterexample :
    spec_valid 1 5 ∧ ¬ marked st55 1 5 ∧ push st55 1 5 = some st55 ∧
      ¬ ∃ s2, push st55 1 5 = some s2 ∧ s2.qt = st55.qt + 1 := by
  have hp : push st55 1 5 = some st55 := by
    rw [push_eq st55 1 5 rfl rfl (by decide)]
    rw [if_neg (by decide)]
  refine ⟨by decide, ?_, hp, ?_⟩
  · unfold marked
    decide
  · rintro ⟨s2, h1, h2⟩
    rw [hp] at h1
    cases h1
    revert h2
    decide

/-- C3 (amended). In a state whose seen grid is 55 x 55 and whose tail lies inside the
frontier buffer: if (x,y) is a valid aligned position with 5 ≤ x and 5 ≤ y that is not yet
marked seen, `push` marks it seen and stores (x,y) at the tail, which grows by one (nothing
else changes); in every other case `push` returns the state unchanged. -/
theorem push_contract (s : St) (x y : Int) (hW : s.gridW = 55) (hH : s.gridH = 55)
    (hq : 0 ≤ s.qt ∧ s.qt < FRONT_CAP) :
    ((spec_valid x y ∧ 5 ≤ x ∧ 5 ≤ y) ∧ ¬ marked s x y →
      ∃ s2, push s x y = some s2 ∧ marked s2 x y ∧ s2.qt = s.qt + 1 ∧
        s2.front s.qt = ⟨x, y⟩ ∧ s2.trace = Ev.pushed ⟨x, y⟩ :: s.trace ∧
        (∀ i, i ≠ s.qt → s2.front i = s.front i) ∧
        (∀ k, k ≠ idx s x y → s2.seen k = s.seen k) ∧
        s2.qh = s.qh ∧ s2.A1 = s.A1 ∧ s2.A2 = s.A2 ∧ s2.A3 = s.A3 ∧ s2.placed = s.placed ∧
        s2.rc = s.rc ∧ s2.gridW = s.gridW ∧ s2.gridH = s.gridH) ∧
    (¬ ((spec_valid x y ∧ 5 ≤ x ∧ 5 ≤ y) ∧ ¬ marked s x y) → push s x y = some s) := by
  rw [push_eq s x y hW hH hq, spec_valid_lattice]
  constructor
  · rintro ⟨hl, hm⟩
    rw [marked_lattice s x y hW hH hl, not_not] at hm
    have hl2 := hl
    unfold on_lattice at hl2
    simp only at hl2
    have hi : idx s x y = cell_of ⟨x, y⟩ := by
      rw [idx_eq s x y hW hH (by omega) (by omega), if_pos hl]
    refine ⟨push_ok s x y, by rw [if_pos ⟨hl, hm⟩], ?_, rfl, ?_, rfl, ?_, ?_, rfl, rfl, rfl,
      rfl, rfl, rfl, rfl, rfl⟩
    · rw [marked_lattice (push_ok s x y) x y hW hH hl]
      simp [push_ok]
    · simp [push_ok]
    · intro i hi2
      simp [push_ok, hi2]
    · intro k hk
      rw [hi] at hk
      simp [push_ok, hk]
  · intro h
    by_cases hl : on_lattice ⟨x, y⟩
    · rw [marked_lattice s x y hW hH hl] at h
      rw [if_neg (fun hc => h ⟨hl, by rw [hc.2]; simp⟩)]
    · rw [if_neg (fun hc => hl hc.1)]

/-- Witness of C3 (amended): pushing (9,5) into the fresh state. -/
theorem push_contract_witness :
    (st55.gridW = 55 ∧ st55.gridH = 55 ∧ 0 ≤ st55.qt ∧ st55.qt < FRONT_CAP) ∧
    ((spec_valid 9 5 ∧ (5 : Int) ≤ 9 ∧ (5 : Int) ≤ 5) ∧ ¬ marked st55 9 5 →
      ∃ s2, push st55 9 5 = some s2 ∧ marked s2 9 5 ∧ s2.qt = st55.qt + 1 ∧
        s2.front st55.qt = ⟨9, 5⟩ ∧ s2.trace = Ev.pushed ⟨9, 5⟩ :: st55.trace ∧
        (∀ i, i ≠ st55.qt → s2.front i = st55.front i) ∧
        (∀ k, k ≠ idx st55 9 5 → s2.seen k = st55.seen k) ∧
        s2.qh = st55.qh ∧ s2.A1 = st55.A1 ∧ s2.A2 = st55.A2 ∧ s2.A3 = st55.A3 ∧
        s2.placed = st55.placed ∧ s2.rc = st55.rc ∧ s2.gridW = st55.gridW ∧
        s2.gridH = st55.gridH) ∧
    (¬ ((spec_valid 9 5 ∧ (5 : Int) ≤ 9 ∧ (5 : Int) ≤ 5) ∧ ¬ marked st55 9 5) →
      push st55 9 5 = some st55) :=
  ⟨by decide, push_contract st55 9 5 rfl rfl (by decide)⟩

/-! ## Frontier queue: random pop -/

theorem upto_eq (n : Int) : upto n = (List.range n.toNat).map fun k : Nat => (k : Int) := rfl

theorem queue_eq (s : St) :
    queue s = (List.range (s.qt - s.qh).toNat).map fun k : Nat => s.front (s.qh + (k : Int)) := by
  unfold queue upto
  rw [List.map_map]
  rfl

theorem queue_length (s : St) : (queue s).length = (s.qt - s.qh).toNat := by
  rw [queue_eq]; simp

theorem mem_queue (s : St) (p : Pos) :
    p ∈ queue s ↔ ∃ i, s.qh ≤ i ∧ i < s.qt ∧ s.front i = p := by
  unfold queue
  simp only [List.mem_map, mem_upto]
  constructor
  · rintro ⟨i, hi, rfl⟩
    exact ⟨s.qh + i, by omega, by omega, rfl⟩
  · rintro ⟨i, h0, h1, rfl⟩
    exact ⟨i - s.qh, by omega, by congr 1; omega⟩

/-- Overwriting slot `j` of a list with `a` and taking out the old entry is a
rearrangement of putting `a` in front. -/
theorem perm_cons_set {α : Type} (a : α) :
    ∀ (T : List α) (j : Nat) (hj : j < T.length),
      List.Perm (a :: T) (T.get ⟨j, hj⟩ :: T.set j a)
  | [], j, hj => absurd hj (by simp)
  | t :: T, 0, _ => List.Perm.swap t a T
  | t :: T, j + 1, hj => by
    have hj2 : j < T.length := by simpa using hj
    have ih := perm_cons_set a T j hj2
    have h1 : List.Perm (a :: t :: T) (t :: a :: T) := List.Perm.swap t a T
    have h2 : List.Perm (t :: a :: T) (t :: T.get ⟨j, hj2⟩ :: T.set j a) := List.Perm.cons t ih
    have h3 : List.Perm (t :: T.get ⟨j, hj2⟩ :: T.set j a) (T.get ⟨j, hj2⟩ :: t :: T.set j a) :=
      List.Perm.swap _ _ _
    exact (h1.trans h2).trans h3

/-- Closed form of the pop step. -/
theorem pop_eq (s : St) (draw : Int) (hd : 0 ≤ draw) (hlt : s.qh < s.qt) (h0 : 0 ≤ s.qh)
    (hcap : s.qt ≤ FRONT_CAP) :
    pop draw s = some (s.front (s.qh + draw % (s.qt - s.qh)),
      pop_ok s (draw % (s.qt - s.qh))) := by
  unfold pop
  rw [if_neg (by omega), Int.tmod_eq_emod hd (by omega)]
  have hm0 : 0 ≤ draw % (s.qt - s.qh) := Int.emod_nonneg _ (by omega)
  have hm1 : draw % (s.qt - s.qh) < s.qt - s.qh := Int.emod_lt_of_pos _ (by omega)
  have hp : 0 ≤ s.qh + draw % (s.qt - s.qh) ∧ s.qh + draw % (s.qt - s.qh) < FRONT_CAP := by
    omega
  have hh : 0 ≤ s.qh ∧ s.qh < FRONT_CAP := by omega
  simp only [rdFront, wrFront, if_pos hp, if_pos hh]
  rfl

theorem queue_pop_perm (s : St) (d : Int) (hd0 : 0 ≤ d) (hd1 : d < s.qt - s.qh) :
    List.Perm (queue s) (s.front (s.qh + d) :: queue (pop_ok s d)) := by
  unfold pop_ok
  rw [queue_eq, queue_eq]
  simp only
  obtain ⟨m, hm⟩ : ∃ m : Nat, (s.qt - s.qh).toNat = m + 1 := ⟨(s.qt - s.qh).toNat - 1, by omega⟩
  have hm2 : (s.qt - (s.qh + 1)).toNat = m := by omega
  rw [hm, hm2, List.range_succ_eq_map, List.map_cons, List.map_map]
  obtain ⟨e, he⟩ : ∃ e : Nat, d = (e : Int) := ⟨d.toNat, by omega⟩
  subst he
  cases e with
  | zero =>
    simp only [Nat.cast_zero, add_zero]
    refine List.Perm.of_eq ?_
    congr 1
    apply List.map_congr_left
    intro k _
    have hne : ¬ (s.qh + 1 + (k : Int) = s.qh) := by omega
    simp only [Function.comp, if_neg hne, Nat.succ_eq_add_one, Nat.cast_add, Nat.cast_one]
    congr 1
    omega
  | succ j =>
    have hj : j < (List.map ((fun k : Nat => s.front (s.qh + (k : Int))) ∘ Nat.succ)
        (List.range m)).length := by
      simp only [List.length_map, List.length_range]
      omega
    have hp := perm_cons_set (s.front (s.qh + ((0 : Nat) : Int)))
      (List.map ((fun k : Nat => s.front (s.qh + (k : Int))) ∘ Nat.succ) (List.range m)) j hj
    have e1 : (List.map ((fun k : Nat => s.front (s.qh + (k : Int))) ∘ Nat.succ)
        (List.range m)).get ⟨j, hj⟩ = s.front (s.qh + ((j + 1 : Nat) : Int)) := by
      simp [Function.comp]
    have e2 : (List.map ((fun k : Nat => s.front (s.qh + (k : Int))) ∘ Nat.succ)
        (List.range m)).set j (s.front (s.qh + ((0 : Nat) : Int))) =
        List.map (fun k : Nat => if s.qh + 1 + (k : Int) = s.qh + ((j + 1 : Nat) : Int)
          then s.front s.qh else s.front (s.qh + 1 + (k : Int))) (List.range m) := by
      apply List.ext_getElem
      · simp
      · intro k h1 h2
        simp only [List.length_map, List.length_range] at h2
        simp only [List.getElem_set, List.getElem_map, List.getElem_range, Function.comp,
          Nat.cast_zero, add_zero, Nat.succ_eq_add_one, Nat.cast_add, Nat.cast_one]
        by_cases hjk : j = k
        · subst hjk
          rw [if_pos rfl, if_pos (by omega)]
        · have hne : ¬ (s.qh + 1 + (k : Int) = s.qh + ((j : Int) + 1)) := by omega
          rw [if_neg hjk, if_neg hne]
          congr 1
          omega
    rw [e1, e2] at hp
    exact hp

/-- C4. In a queue state with `0 ≤ head < tail ≤ capacity` and for a non-negative draw,
the pop step makes only in-range accesses, returns the entry stored at index
`head + draw mod (tail - head)`, advances head by one, leaves tail unchanged, and the
multiset of the new unprocessed range is the old one with one occurrence of the returned
entry (which it contained) removed. -/
theorem pop_removes_one (s : St) (draw : Int) (hd : 0 ≤ draw) (hlt : s.qh < s.qt)
    (h0 : 0 ≤ s.qh) (hcap : s.qt ≤ FRONT_CAP) :
    ∃ s2, pop draw s = some (s.front (s.qh + draw % (s.qt - s.qh)), s2) ∧
      s2.qh = s.qh + 1 ∧ s2.qt = s.qt ∧
      s.front (s.qh + draw % (s.qt - s.qh)) ∈ queue s ∧
      (↑(queue s2) : Multiset Pos) =
        (↑(queue s) : Multiset Pos).erase (s.front (s.qh + draw % (s.qt - s.qh))) := by
  have hm0 : 0 ≤ draw % (s.qt - s.qh) := Int.emod_nonneg _ (by omega)
  have hm1 : draw % (s.qt - s.qh) < s.qt - s.qh := Int.emod_lt_of_pos _ (by omega)
  refine ⟨_, pop_eq s draw hd hlt h0 hcap, rfl, rfl, ?_, ?_⟩
  · rw [mem_queue]
    exact ⟨_, by omega, by omega, rfl⟩
  · have hp := queue_pop_perm s (draw % (s.qt - s.qh)) hm0 hm1
    have hq : (↑(queue s) : Multiset Pos) = ↑(s.front (s.qh + draw % (s.qt - s.qh)) ::
        queue (pop_ok s (draw % (s.qt - s.qh)))) := Multiset.coe_eq_coe.2 hp
    rw [hq, ← Multiset.cons_coe, Multiset.erase_cons_head]

/-- Witness of C4: a queue holding the single entry (9,5), draw 7. -/
theorem pop_removes_one_witness :
    ((0 : Int) ≤ 7 ∧ (push_ok st55 9 5).qh < (push_ok st55 9 5).qt ∧
      0 ≤ (push_ok st55 9 5).qh ∧ (push_ok st55 9 5).qt ≤ FRONT_CAP) ∧
    ∃ s2, pop 7 (push_ok st55 9 5) =
        some ((push_ok st55 9 5).front ((push_ok st55 9 5).qh +
          7 % ((push_ok st55 9 5).qt - (push_ok st55 9 5).qh)), s2) ∧
      s2.qh = (push_ok st55 9 5).qh + 1 ∧ s2.qt = (push_ok st55 9 5).qt ∧
      (push_ok st55 9 5).front ((push_ok st55 9 5).qh +
          7 % ((push_ok st55 9 5).qt - (push_ok st55 9 5).qh)) ∈ queue (push_ok st55 9 5) ∧
      (↑(queue s2) : Multiset Pos) =
        (↑(queue (push_ok st55 9 5)) : Multiset Pos).erase
          ((push_ok st55 9 5).front ((push_ok st55 9 5).qh +
            7 % ((push_ok st55 9 5).qt - (push_ok st55 9 5).qh))) :=
  ⟨by decide, pop_removes_one (push_ok st55 9 5) 7 (by decide) (by decide) (by decide)
    (by decide)⟩

/-! ## Pattern generator and tile sampler -/

theorem foldl_sample_cell (r0 c0 : Int) (L : List (Int × Int)) :
    ∀ s : St, L.foldl (sample_cell r0 c0) s =
      { s with A3 := fun r c =>
          if (r, c) ∈ L then s.A1 (r0 + r) (c0 + c) else s.A3 r c } := by
  induction L with
  | nil => intro s; simp
  | cons rc rest ih =>
    intro s
    rw [List.foldl_cons, ih]
    obtain ⟨r1, c1⟩ := rc
    simp only [sample_cell]
    congr 1
    funext r c
    by_cases h1 : (r, c) ∈ rest
    · simp [h1]
    · by_cases h2 : r = r1 ∧ c = c1
      · obtain ⟨rfl, rfl⟩ := h2
        simp
      · have h3 : ¬ ((r, c) = (r1, c1)) := by
          rw [Prod.mk.injEq]; exact h2
        simp [h1, h2, h3]

theorem sample_eq (rng : Nat → Nat) (s : St) :
    sample_A3_from_A1 rng s =
      { s with
        rc := s.rc + 2,
        A3 := fun r c =>
          if (0 ≤ r ∧ r < 4) ∧ (0 ≤ c ∧ c < 4) then
            s.A1 ((rng s.rc : Int) % 5 + r) ((rng (s.rc + 1) : Int) % 10 + c)
          else s.A3 r c } := by
  unfold sample_A3_from_A1
  simp only [rand, foldl_sample_cell, mem_loop_rc, A1_H, A1_W, TILE]
  rw [Int.tmod_eq_emod (by omega) (by omega), Int.tmod_eq_emod (by omega) (by omega)]
  rfl

theorem foldl_gen_A1_cell (rng : Nat → Nat) (L : List (Int × Int)) :
    ∀ s : St, ∃ F : Grid, ∃ n : Nat,
      L.foldl (gen_A1_cell rng) s = { s with A1 := F, rc := n } ∧
      ∀ r c, ((r, c) ∈ L ∨ (1 ≤ s.A1 r c ∧ s.A1 r c ≤ 4)) → 1 ≤ F r c ∧ F r c ≤ 4 := by
  induction L with
  | nil =>
    intro s
    exact ⟨s.A1, s.rc, rfl, fun r c h => by simpa using h⟩
  | cons rc rest ih =>
    intro s
    obtain ⟨F, n, hF, hr⟩ := ih (gen_A1_cell rng s rc)
    refine ⟨F, n, ?_, ?_⟩
    · rw [List.foldl_cons, hF]
      rfl
    · intro r c h
      apply hr
      by_cases hm : (r, c) ∈ rest
      · exact Or.inl hm
      · right
        simp only [gen_A1_cell, rand]
        by_cases h2 : r = rc.1 ∧ c = rc.2
        · rw [if_pos h2, Int.tmod_eq_emod (by omega) (by omega)]
          omega
        · rw [if_neg h2]
          rcases h with h | h
          · rcases List.mem_cons.1 h with h | h
            · exact absurd ⟨congrArg Prod.fst h, congrArg Prod.snd h⟩ h2
            · exact absurd h hm
          · exact h

theorem gen_A1_eq (rng : Nat → Nat) (s : St) :
    ∃ F : Grid, ∃ n : Nat, gen_A1 rng s = { s with A1 := F, rc := n } ∧
      ∀ r c, 0 ≤ r → r < 8 → 0 ≤ c → c < 13 → 1 ≤ F r c ∧ F r c ≤ 4 := by
  obtain ⟨F, n, hF, hr⟩ := foldl_gen_A1_cell rng (loop_rc A1_H A1_W) s
  exact ⟨F, n, hF, fun r c h0 h1 h2 h3 =>
    hr r c (Or.inl ((mem_loop_rc _ _ _ _).2 ⟨⟨h0, h1⟩, h2, h3⟩))⟩

/-! ## The lattice of block positions -/

theorem mem_lattice (p : Pos) : p ∈ lattice ↔ on_lattice p := by
  unfold lattice on_lattice
  simp only [Finset.mem_image, Finset.mem_product, Finset.mem_range, Prod.exists]
  constructor
  · rintro ⟨i, j, ⟨hi, hj⟩, rfl⟩
    simp only
    omega
  · intro h
    obtain ⟨x, y⟩ := p
    simp only at h
    refine ⟨((x - 5) / 4).toNat, ((y - 5) / 4).toNat, ⟨by omega, by omega⟩, ?_⟩
    have h1 : (5 : Int) + 4 * ((((x - 5) / 4).toNat : Nat) : Int) = x := by omega
    have h2 : (5 : Int) + 4 * ((((y - 5) / 4).toNat : Nat) : Int) = y := by omega
    rw [h1, h2]

theorem on_lattice_mk (x y : Int) :
    on_lattice ⟨x, y⟩ ↔ (5 ≤ x ∧ x ≤ 221 ∧ x % 4 = 1) ∧ (5 ≤ y ∧ y ≤ 221 ∧ y % 4 = 1) :=
  Iff.rfl

theorem is_nbr_mk (qx qy px py : Int) :
    is_nbr ⟨qx, qy⟩ ⟨px, py⟩ ↔
      (px = qx + 4 ∧ py = qy) ∨ (px = qx - 4 ∧ py = qy) ∨
      (px = qx ∧ py = qy + 4) ∨ (px = qx ∧ py = qy - 4) :=
  Iff.rfl

theorem card_lattice : lattice.card = 3025 := by
  unfold lattice
  rw [Finset.card_image_of_injective]
  · simp
  · rintro ⟨i1, j1⟩ ⟨i2, j2⟩ h
    simp only [Pos.mk.injEq] at h
    rw [Prod.mk.injEq]
    omega

theorem seed_on_lattice : on_lattice seed := by decide

theorem card_lattice_erase : (lattice.erase seed).card = 3024 := by
  have hm : seed ∈ lattice := by
    rw [mem_lattice]
    exact seed_on_lattice
  rw [Finset.card_erase_of_mem hm, card_lattice]

/-- A duplicate-free list of lattice positions other than the seed has at most 3024
entries. -/
theorem length_le_of_lattice (L : List Pos) (hn : L.Nodup)
    (hl : ∀ p ∈ L, on_lattice p ∧ p ≠ seed) : L.length ≤ 3024 := by
  have hsub : L.toFinset ⊆ lattice.erase seed := by
    intro p hp
    rw [List.mem_toFinset] at hp
    rw [Finset.mem_erase, mem_lattice]
    exact ⟨(hl p hp).2, (hl p hp).1⟩
  have hc := Finset.card_le_card hsub
  rw [List.toFinset_card_of_nodup hn, card_lattice_erase] at hc
  exact hc

/-- A duplicate-free list of lattice positions other than the seed that, together with
the seed, covers the lattice has exactly 3024 entries. -/
theorem length_eq_of_lattice (L : List Pos) (hn : L.Nodup)
    (hl : ∀ p ∈ L, on_lattice p ∧ p ≠ seed)
    (hall : ∀ p, on_lattice p → p = seed ∨ p ∈ L) : L.length = 3024 := by
  have hsub : lattice.erase seed ⊆ L.toFinset := by
    intro p hp
    rw [Finset.mem_erase, mem_lattice] at hp
    rw [List.mem_toFinset]
    rcases hall p hp.2 with h | h
    · exact absurd h hp.1
    · exact h
  have hc := Finset.card_le_card hsub
  rw [List.toFinset_card_of_nodup hn, card_lattice_erase] at hc
  have := length_le_of_lattice L hn hl
  omega

/-- The lattice is connected: a set of lattice positions that contains the seed and is
closed under lattice neighbours is the whole lattice. -/
theorem lattice_connected (P : Pos → Prop) (hseed : P seed)
    (hstep : ∀ q, on_lattice q → P q → ∀ p, on_lattice p → is_nbr q p → P p) :
    ∀ p, on_lattice p → P p := by
  have hrow : ∀ i : Nat, i < 55 → P ⟨5 + 4 * (i : Int), 5⟩ := by
    intro i
    induction i with
    | zero => intro _; exact hseed
    | succ k ih =>
      intro hk
      refine hstep ⟨5 + 4 * (k : Int), 5⟩ ?_ (ih (by omega)) _ ?_ ?_
      · rw [on_lattice_mk]; omega
      · rw [on_lattice_mk]; omega
      · rw [is_nbr_mk]; omega
  have hall : ∀ i j : Nat, i < 55 → j < 55 → P ⟨5 + 4 * (i : Int), 5 + 4 * (j : Int)⟩ := by
    intro i j
    induction j with
    | zero => intro hi _; exact hrow i hi
    | succ k ih =>
      intro hi hk
      refine hstep ⟨5 + 4 * (i : Int), 5 + 4 * (k : Int)⟩ ?_ (ih hi (by omega)) _ ?_ ?_
      · rw [on_lattice_mk]; omega
      · rw [on_lattice_mk]; omega
      · rw [is_nbr_mk]; omega
  intro p hp
  obtain ⟨x, y⟩ := p
  unfold on_lattice at hp
  simp only at hp
  have h := hall ((x - 5) / 4).toNat ((y - 5) / 4).toNat (by omega) (by omega)
  have h1 : (5 : Int) + 4 * ((((x - 5) / 4).toNat : Nat) : Int) = x := by omega
  have h2 : (5 : Int) + 4 * ((((y - 5) / 4).toNat : Nat) : Int) = y := by omega
  rw [h1, h2] at h
  exact h

/-! ## Invariant: push -/

theorem PushRel.refl (s : St) : PushRel s s :=
  ⟨rfl, rfl, rfl, rfl, rfl, rfl, rfl, rfl, fun _ h => h⟩

theorem PushRel.trans {s1 s2 s3 : St} (h1 : PushRel s1 s2) (h2 : PushRel s2 s3) :
    PushRel s1 s3 :=
  ⟨h2.placedOf_eq.trans h1.placedOf_eq, h2.poppedOf_eq.trans h1.poppedOf_eq,
    h2.touchedOf_eq.trans h1.touchedOf_eq, h2.A1_eq.trans h1.A1_eq, h2.A2_eq.trans h1.A2_eq,
    h2.placed_eq.trans h1.placed_eq, h2.qh_eq.trans h1.qh_eq, h2.rc_eq.trans h1.rc_eq,
    fun p hp => h2.pushed_mono p (h1.pushed_mono p hp)⟩

theorem QInv.qt_le {s : St} (h : QInv s) : s.qt ≤ 3024 := by
  have := length_le_of_lattice _ h.nodup h.lat
  rw [h.qt_len]
  omega

theorem queue_push_ok (s : St) (x y : Int) (h : s.qh ≤ s.qt) :
    queue (push_ok s x y) = queue s ++ [⟨x, y⟩] := by
  rw [queue_eq, queue_eq]
  simp only [push_ok]
  obtain ⟨m, hm⟩ : ∃ m : Nat, s.qt - s.qh = (m : Int) := ⟨(s.qt - s.qh).toNat, by omega⟩
  have e1 : (s.qt + 1 - s.qh).toNat = m + 1 := by omega
  have e2 : (s.qt - s.qh).toNat = m := by omega
  rw [e1, e2, List.range_succ, List.map_append, List.map_cons, List.map_nil]
  congr 1
  · apply List.map_congr_left
    intro k hk
    rw [List.mem_range] at hk
    rw [if_neg (by omega)]
  · rw [if_pos (by omega)]

theorem QInv_push_ok (s : St) (x y : Int) (h : QInv s) (hl : on_lattice ⟨x, y⟩)
    (hs : s.seen (cell_of ⟨x, y⟩) = 0) : QInv (push_ok s x y) := by
  have hnot : ¬ ((⟨x, y⟩ : Pos) = seed ∨ (⟨x, y⟩ : Pos) ∈ pushedOf s.trace) := by
    rw [← h.seen_iff _ hl]
    simp [hs]
  refine ⟨h.gridW, h.gridH, h.qh_nonneg, ?_, ?_, ?_, ?_, ?_, ?_⟩
  · show s.qh ≤ s.qt + 1
    have := h.qh_le
    omega
  · show s.qt + 1 = ((⟨x, y⟩ : Pos) :: pushedOf s.trace).length
    rw [List.length_cons, h.qt_len]
    omega
  · show ((⟨x, y⟩ : Pos) :: pushedOf s.trace).Nodup
    exact List.nodup_cons.2 ⟨fun hm => hnot (Or.inr hm), h.nodup⟩
  · intro p hp
    rcases List.mem_cons.1 hp with rfl | hp
    · exact ⟨hl, fun hc => hnot (Or.inl hc)⟩
    · exact h.lat p hp
  · intro p hp
    show (if cell_of p = cell_of ⟨x, y⟩ then (1 : Int) else s.seen (cell_of p)) ≠ 0 ↔
      p = seed ∨ p ∈ (⟨x, y⟩ : Pos) :: pushedOf s.trace
    by_cases hc : cell_of p = cell_of ⟨x, y⟩
    · have := cell_of_inj _ _ hp hl hc
      subst this
      simp
    · rw [if_neg hc, h.seen_iff p hp, List.mem_cons]
      have hne : p ≠ ⟨x, y⟩ := fun he => hc (by rw [he])
      simp [hne]
  · rw [queue_push_ok s x y h.qh_le]
    show List.Perm (queue s ++ [⟨x, y⟩] ++ poppedOf s.trace) ((⟨x, y⟩ : Pos) :: pushedOf s.trace)
    have h1 : List.Perm (queue s ++ [⟨x, y⟩] ++ poppedOf s.trace)
        ((⟨x, y⟩ : Pos) :: (queue s ++ poppedOf s.trace)) := by
      rw [List.append_assoc]
      exact List.perm_middle
    exact h1.trans (List.Perm.cons _ h.perm)

/-- A `push` of a lattice neighbour of a placed block preserves the invariant parts and
leaves that neighbour seen. -/
theorem push_inv (s : St) (x y : Int) (hQ : QInv s) (hG : GInv s) (hL : LInv s)
    (hn : ∃ q ∈ placedOf s.trace, is_nbr q ⟨x, y⟩) :
    ∃ s2, push s x y = some s2 ∧ QInv s2 ∧ GInv s2 ∧ LInv s2 ∧ PushRel s s2 ∧
      (on_lattice ⟨x, y⟩ → (⟨x, y⟩ : Pos) = seed ∨ (⟨x, y⟩ : Pos) ∈ pushedOf s2.trace) := by
  have hcap : 0 ≤ s.qt ∧ s.qt < FRONT_CAP := by
    have h1 := hQ.qt_le
    have h2 := hQ.qh_nonneg
    have h3 := hQ.qh_le
    simp only [FRONT_CAP]
    omega
  rw [push_eq s x y hQ.gridW hQ.gridH hcap]
  by_cases hc : on_lattice ⟨x, y⟩ ∧ s.seen (cell_of ⟨x, y⟩) = 0
  · rw [if_pos hc]
    refine ⟨_, rfl, QInv_push_ok s x y hQ hc.1 hc.2,
      ⟨hG.placed_len, hG.placed_nodup, hG.placed_lat, hG.seed_placed, hG.A1_range, hG.grid_iff,
        hG.grid_val⟩,
      ⟨hL.placed_sub, hL.touched_sub, ?_⟩,
      ⟨rfl, rfl, rfl, rfl, rfl, rfl, rfl, rfl, fun p hp => List.mem_cons_of_mem _ hp⟩,
      fun _ => Or.inr (List.mem_cons_self _ _)⟩
    intro p hp
    rcases List.mem_cons.1 hp with rfl | hp
    · exact hn
    · exact hL.nbr p hp
  · rw [if_neg hc]
    refine ⟨s, rfl, hQ, hG, hL, PushRel.refl s, ?_⟩
    intro hl
    rw [← hQ.seen_iff _ hl]
    exact fun h0 => hc ⟨hl, h0⟩

theorem push4_inv (s : St) (q p1 p2 p3 p4 : Pos) (hQ : QInv s) (hG : GInv s) (hL : LInv s)
    (hq : q ∈ placedOf s.trace) (h1 : is_nbr q p1) (h2 : is_nbr q p2) (h3 : is_nbr q p3)
    (h4 : is_nbr q p4) :
    ∃ s2, push4 s p1 p2 p3 p4 = some s2 ∧ QInv s2 ∧ GInv s2 ∧ LInv s2 ∧ PushRel s s2 ∧
      ∀ p, p = p1 ∨ p = p2 ∨ p = p3 ∨ p = p4 → on_lattice p →
        p = seed ∨ p ∈ pushedOf s2.trace := by
  obtain ⟨a, ha, hQa, hGa, hLa, hRa, hSa⟩ := push_inv s p1.x p1.y hQ hG hL ⟨q, hq, h1⟩
  obtain ⟨b, hb, hQb, hGb, hLb, hRb, hSb⟩ := push_inv a p2.x p2.y hQa hGa hLa
    ⟨q, by rw [hRa.placedOf_eq]; exact hq, h2⟩
  obtain ⟨c, hc, hQc, hGc, hLc, hRc, hSc⟩ := push_inv b p3.x p3.y hQb hGb hLb
    ⟨q, by rw [hRb.placedOf_eq, hRa.placedOf_eq]; exact hq, h3⟩
  obtain ⟨d, hd, hQd, hGd, hLd, hRd, hSd⟩ := push_inv c p4.x p4.y hQc hGc hLc
    ⟨q, by rw [hRc.placedOf_eq, hRb.placedOf_eq, hRa.placedOf_eq]; exact hq, h4⟩
  refine ⟨d, ?_, hQd, hGd, hLd, ((hRa.trans hRb).trans hRc).trans hRd, ?_⟩
  · simp only [push4, ha, hb, hc, hd, Option.bind_some, Option.some_bind]
  · rintro p (rfl | rfl | rfl | rfl) hp
    · rcases hSa hp with h | h
      · exact Or.inl h
      · exact Or.inr (hRd.pushed_mono _ (hRc.pushed_mono _ (hRb.pushed_mono _ h)))
    · rcases hSb hp with h | h
      · exact Or.inl h
      · exact Or.inr (hRd.pushed_mono _ (hRc.pushed_mono _ h))
    · rcases hSc hp with h | h
      · exact Or.inl h
      · exact Or.inr (hRd.pushed_mono _ h)
    · exact hSd hp

/-! ## Invariant: transfer between states, pop -/

theorem queue_congr {s s2 : St} (e1 : s2.qh = s.qh) (e2 : s2.qt = s.qt)
    (e3 : s2.front = s.front) : queue s2 = queue s := by
  unfold queue
  rw [e1, e2, e3]

theorem QInv.transfer {s s2 : St} (h : QInv s) (e1 : s2.gridW = s.gridW)
    (e2 : s2.gridH = s.gridH) (e3 : s2.qh = s.qh) (e4 : s2.qt = s.qt) (e5 : s2.seen = s.seen)
    (e6 : s2.front = s.front) (e7 : pushedOf s2.trace = pushedOf s.trace)
    (e8 : poppedOf s2.trace = poppedOf s.trace) : QInv s2 := by
  refine ⟨?_, ?_, ?_, ?_, ?_, ?_, ?_, ?_, ?_⟩
  · rw [e1]; exact h.gridW
  · rw [e2]; exact h.gridH
  · rw [e3]; exact h.qh_nonneg
  · rw [e3, e4]; exact h.qh_le
  · rw [e4, e7]; exact h.qt_len
  · rw [e7]; exact h.nodup
  · rw [e7]; exact h.lat
  · rw [e5, e7]; exact h.seen_iff
  · rw [queue_congr e3 e4 e6, e7, e8]; exact h.perm

theorem GInv.carry {s s2 : St} (h : GInv s) (e1 : s2.placed = s.placed)
    (e2 : placedOf s2.trace = placedOf s.trace) (e3 : s2.A1 = s.A1) (e4 : s2.A2 = s.A2) :
    GInv s2 := by
  refine ⟨?_, ?_, ?_, ?_, ?_, ?_, ?_⟩
  · rw [e1, e2]; exact h.placed_len
  · rw [e2]; exact h.placed_nodup
  · rw [e2]; exact h.placed_lat
  · rw [e2]; exact h.seed_placed
  · rw [e3]; exact h.A1_range
  · rw [e2, e4]; exact h.grid_iff
  · rw [e4]; exact h.grid_val

theorem LInv.move {s s2 : St} (h : LInv s) (e1 : pushedOf s2.trace = pushedOf s.trace)
    (e2 : poppedOf s2.trace = poppedOf s.trace) (e3 : placedOf s2.trace = placedOf s.trace)
    (e4 : touchedOf s2.trace = touchedOf s.trace) : LInv s2 := by
  refine ⟨?_, ?_, ?_⟩
  · rw [e2, e3]; exact h.placed_sub
  · rw [e2, e4]; exact h.touched_sub
  · rw [e1, e3]; exact h.nbr

theorem Closed.shift {s s2 : St} (h : Closed s) (e1 : pushedOf s2.trace = pushedOf s.trace)
    (e3 : placedOf s2.trace = placedOf s.trace) : Closed s2 := by
  unfold Closed
  rw [e1, e3]
  exact h

/-- Every entry of the unprocessed range was pushed and has not been popped. -/
theorem QInv.mem_queue_fresh {s : St} (h : QInv s) (p : Pos) (hp : p ∈ queue s) :
    p ∈ pushedOf s.trace ∧ p ∉ poppedOf s.trace := by
  have hmem : p ∈ queue s ++ poppedOf s.trace := List.mem_append_left _ hp
  refine ⟨(h.perm.mem_iff).1 hmem, ?_⟩
  have hnd : (queue s ++ poppedOf s.trace).Nodup := (h.perm.nodup_iff).2 h.nodup
  exact fun hc => (List.disjoint_of_nodup_append hnd) hp hc

theorem QInv.popped_nodup {s : St} (h : QInv s) : (poppedOf s.trace).Nodup := by
  have hnd : (queue s ++ poppedOf s.trace).Nodup := (h.perm.nodup_iff).2 h.nodup
  exact (List.nodup_append.1 hnd).2.1

theorem QInv.popped_sub {s : St} (h : QInv s) (p : Pos) (hp : p ∈ poppedOf s.trace) :
    p ∈ pushedOf s.trace :=
  (h.perm.mem_iff).1 (List.mem_append_right _ hp)

theorem QInv.qh_eq {s : St} (h : QInv s) : s.qh = (poppedOf s.trace).length := by
  have h1 := h.perm.length_eq
  rw [List.length_append, queue_length] at h1
  have h2 := h.qt_len
  have h3 := h.qh_le
  omega

theorem QInv_pop_ok (s : St) (d : Int) (h : QInv s) (hd0 : 0 ≤ d) (hd1 : d < s.qt - s.qh) :
    QInv (pop_ok s d) := by
  refine ⟨h.gridW, h.gridH, ?_, ?_, h.qt_len, h.nodup, h.lat, h.seen_iff, ?_⟩
  · show 0 ≤ s.qh + 1
    have := h.qh_nonneg
    omega
  · show s.qh + 1 ≤ s.qt
    omega
  · show List.Perm (queue (pop_ok s d) ++ s.front (s.qh + d) :: poppedOf s.trace)
      (pushedOf s.trace)
    have h1 : List.Perm (queue (pop_ok s d) ++ s.front (s.qh + d) :: poppedOf s.trace)
        (s.front (s.qh + d) :: queue (pop_ok s d) ++ poppedOf s.trace) := List.perm_middle
    have h2 : List.Perm (s.front (s.qh + d) :: queue (pop_ok s d) ++ poppedOf s.trace)
        (queue s ++ poppedOf s.trace) :=
      List.Perm.append_right _ (queue_pop_perm s d hd0 hd1).symm
    exact (h1.trans h2).trans h.perm

/-! ## Invariant: adjacency gate and placement -/

/-- A lattice position next to a completely filled block passes the adjacency test. -/
theorem touches_one (g : Grid) (cur q : Pos) (hcur : on_lattice cur) (hq : on_lattice q)
    (hn : is_nbr q cur) (hfull : ∀ i j, in_footprint q i j → g i j ≠ 0) :
    touches_existing g cur.x cur.y = some 1 := by
  unfold on_lattice at hcur hq
  obtain ⟨t, ht, _, hiff⟩ := touches_existing_guarded g cur.x cur.y (by omega) (by omega)
    (by omega) (by omega)
  have h1 : t = 1 := by
    rw [hiff]
    right
    unfold is_nbr at hn
    rcases hn with h | h | h | h
    · left
      refine ⟨by omega, 0, by omega, by omega, hfull _ _ ?_⟩
      unfold in_footprint; omega
    · right; left
      refine ⟨by omega, 0, by omega, by omega, hfull _ _ ?_⟩
      unfold in_footprint; omega
    · right; right; left
      refine ⟨by omega, 0, by omega, by omega, hfull _ _ ?_⟩
      unfold in_footprint; omega
    · right; right; right
      refine ⟨by omega, 0, by omega, by omega, hfull _ _ ?_⟩
      unfold in_footprint; omega
  rw [ht, h1]

/-- Every entry of a sampled stamp is a tile code of the source pattern. -/
theorem stamp_range (rng : Nat → Nat) (s : St)
    (hA1 : ∀ r c, 0 ≤ r → r < 8 → 0 ≤ c → c < 13 → 1 ≤ s.A1 r c ∧ s.A1 r c ≤ 4)
    (r c : Int) (hr : 0 ≤ r ∧ r < 4) (hc : 0 ≤ c ∧ c < 4) :
    1 ≤ (sample_A3_from_A1 rng s).A3 r c ∧ (sample_A3_from_A1 rng s).A3 r c ≤ 4 := by
  rw [sample_eq]
  simp only
  rw [if_pos ⟨hr, hc⟩]
  apply hA1 <;> omega

theorem place_at_eq (rng : Nat → Nat) (s : St) (p : Pos)
    (hx0 : 0 ≤ p.x) (hx1 : p.x + 4 ≤ 225) (hy0 : 0 ≤ p.y) (hy1 : p.y + 4 ≤ 225) :
    ∃ g2, place_at rng s p = some (place_ok rng s p g2) ∧
      ∀ i j, g2 i j =
        if s.A2 i j = 0 ∧ in_footprint p i j then
          (sample_A3_from_A1 rng s).A3 (i - p.y) (j - p.x)
        else s.A2 i j := by
  obtain ⟨g2, h1, h2⟩ := place_block_eq (sample_A3_from_A1 rng s).A2 p.x p.y
    (sample_A3_from_A1 rng s).A3 hx0 hx1 hy0 hy1
  refine ⟨g2, ?_, ?_⟩
  · unfold place_at
    simp only [h1]
    unfold place_ok
    rw [sample_eq]
  · intro i j
    rw [h2 i j]
    have e : (sample_A3_from_A1 rng s).A2 = s.A2 := by rw [sample_eq]
    rw [e]
    rfl

/-- The grid part of the invariant after a placement at a fresh lattice position. -/
theorem GInv_place_ok (rng : Nat → Nat) (s : St) (p : Pos) (g2 : Grid)
    (hg2 : ∀ i j, g2 i j =
        if s.A2 i j = 0 ∧ in_footprint p i j then
          (sample_A3_from_A1 rng s).A3 (i - p.y) (j - p.x)
        else s.A2 i j)
    (hlen : s.placed = (placedOf s.trace).length)
    (hnd : (placedOf s.trace).Nodup)
    (hlat : ∀ q ∈ placedOf s.trace, on_lattice q)
    (hseed : seed ∈ p :: placedOf s.trace)
    (hA1 : ∀ r c, 0 ≤ r → r < 8 → 0 ≤ c → c < 13 → 1 ≤ s.A1 r c ∧ s.A1 r c ≤ 4)
    (hgrid : ∀ i j, s.A2 i j ≠ 0 ↔ ∃ q ∈ placedOf s.trace, in_footprint q i j)
    (hval : ∀ i j, 0 ≤ s.A2 i j ∧ s.A2 i j ≤ 4)
    (hp : on_lattice p) (hnew : p ∉ placedOf s.trace) :
    GInv (place_ok rng s p g2) := by
  have hst : ∀ i j, in_footprint p i j →
      1 ≤ (sample_A3_from_A1 rng s).A3 (i - p.y) (j - p.x) ∧
      (sample_A3_from_A1 rng s).A3 (i - p.y) (j - p.x) ≤ 4 := by
    intro i j hf
    unfold in_footprint at hf
    exact stamp_range rng s hA1 _ _ (by omega) (by omega)
  refine ⟨?_, ?_, ?_, hseed, hA1, ?_, ?_⟩
  · show s.placed + 1 = ((p :: placedOf s.trace).length : Int)
    rw [List.length_cons, hlen]
    push_cast
    rfl
  · exact List.nodup_cons.2 ⟨hnew, hnd⟩
  · intro q hq
    rcases List.mem_cons.1 hq with rfl | hq
    · exact hp
    · exact hlat q hq
  · intro i j
    show g2 i j ≠ 0 ↔ ∃ q ∈ p :: placedOf s.trace, in_footprint q i j
    rw [hg2]
    by_cases hc : s.A2 i j = 0 ∧ in_footprint p i j
    · rw [if_pos hc]
      have := hst i j hc.2
      constructor
      · exact fun _ => ⟨p, List.mem_cons_self _ _, hc.2⟩
      · intro _; omega
    · rw [if_neg hc, hgrid]
      constructor
      · rintro ⟨q, hq, hf⟩
        exact ⟨q, List.mem_cons_of_mem _ hq, hf⟩
      · rintro ⟨q, hq, hf⟩
        rcases List.mem_cons.1 hq with rfl | hq
        · by_contra hno
          exact hc ⟨by_contra fun h0 => hno ((hgrid i j).1 h0), hf⟩
        · exact ⟨q, hq, hf⟩
  · intro i j
    show 0 ≤ g2 i j ∧ g2 i j ≤ 4
    rw [hg2]
    by_cases hc : s.A2 i j = 0 ∧ in_footprint p i j
    · rw [if_pos hc]
      have := hst i j hc.2
      omega
    · rw [if_neg hc]
      exact hval i j

/-! ## Invariant: one iteration of the growth loop -/

theorem is_nbr_cases (q p : Pos) (h : is_nbr q p) :
    p = ⟨q.x + TILE, q.y⟩ ∨ p = ⟨q.x - TILE, q.y⟩ ∨ p = ⟨q.x, q.y + TILE⟩ ∨
      p = ⟨q.x, q.y - TILE⟩ := by
  obtain ⟨px, py⟩ := p
  unfold is_nbr at h
  simp only at h
  simp only [Pos.mk.injEq, TILE]
  omega

theorem gate_inv (rng : Nat → Nat) (pp : Int) (s : St) (cur : Pos)
    (hQ : QInv s) (hG : GInv s) (hL : LInv s) (hC : Closed s)
    (h1 : cur ∈ pushedOf s.trace) (h2 : cur ∈ poppedOf s.trace)
    (h3 : cur ∉ placedOf s.trace) :
    ∃ s2, gate rng pp s cur = some s2 ∧ Inv s2 ∧
      GateRel cur ((rng s.rc : Int) % 100 < pp) s s2 := by
  have hcur : on_lattice cur := (hQ.lat cur h1).1
  have hroll : Int.tmod (rng s.rc : Int) 100 = (rng s.rc : Int) % 100 :=
    Int.tmod_eq_emod (by omega) (by omega)
  unfold gate
  simp only [rand, hroll]
  by_cases hok : (rng s.rc : Int) % 100 < pp
  · rw [if_pos hok]
    obtain ⟨q, hq, hqn⟩ := hL.nbr cur h1
    have ht : touches_existing s.A2 cur.x cur.y = some 1 :=
      touches_one s.A2 cur q hcur (hG.placed_lat q hq) hqn
        (fun i j hf => (hG.grid_iff i j).2 ⟨q, hq, hf⟩)
    simp only [ht]
    rw [if_pos (by decide)]
    -- the state in which `grow` starts
    have hQt : QInv { s with rc := s.rc + 1, trace := Ev.touches cur :: s.trace } :=
      hQ.transfer rfl rfl rfl rfl rfl rfl rfl rfl
    have hGt : GInv { s with rc := s.rc + 1, trace := Ev.touches cur :: s.trace } :=
      hG.carry rfl rfl rfl rfl
    have hcl := hcur
    unfold on_lattice at hcl
    obtain ⟨g2, hg2, hspec⟩ := place_at_eq rng
      { s with rc := s.rc + 1, trace := Ev.touches cur :: s.trace } cur
      (by omega) (by omega) (by omega) (by omega)
    have hQ3 : QInv (place_ok rng
        { s with rc := s.rc + 1, trace := Ev.touches cur :: s.trace } cur g2) :=
      hQ.transfer rfl rfl rfl rfl rfl rfl rfl rfl
    have hG3 : GInv (place_ok rng
        { s with rc := s.rc + 1, trace := Ev.touches cur :: s.trace } cur g2) :=
      GInv_place_ok rng _ cur g2 hspec hG.placed_len hG.placed_nodup hG.placed_lat
        (List.mem_cons_of_mem _ hG.seed_placed) hG.A1_range hG.grid_iff hG.grid_val hcur h3
    have hL3 : LInv (place_ok rng
        { s with rc := s.rc + 1, trace := Ev.touches cur :: s.trace } cur g2) := by
      refine ⟨?_, ?_, ?_⟩
      · intro p hp
        rcases List.mem_cons.1 hp with rfl | hp
        · exact Or.inr h2
        · exact hL.placed_sub p hp
      · intro p hp
        rcases List.mem_cons.1 hp with rfl | hp
        · exact h2
        · exact hL.touched_sub p hp
      · intro p hp
        obtain ⟨q2, hq2, hn2⟩ := hL.nbr p hp
        exact ⟨q2, List.mem_cons_of_mem _ hq2, hn2⟩
    obtain ⟨s4, hs4, hQ4, hG4, hL4, hR4, hS4⟩ := push4_inv _ cur
      ⟨cur.x + TILE, cur.y⟩ ⟨cur.x - TILE, cur.y⟩ ⟨cur.x, cur.y + TILE⟩ ⟨cur.x, cur.y - TILE⟩
      hQ3 hG3 hL3 (List.mem_cons_self _ _)
      (Or.inl ⟨rfl, rfl⟩) (Or.inr (Or.inl ⟨rfl, rfl⟩)) (Or.inr (Or.inr (Or.inl ⟨rfl, rfl⟩)))
      (Or.inr (Or.inr (Or.inr ⟨rfl, rfl⟩)))
    have hC4 : Closed s4 := by
      intro q2 hq2 p hp hn
      rw [hR4.placedOf_eq] at hq2
      rcases List.mem_cons.1 hq2 with rfl | hq2
      · exact hS4 p (is_nbr_cases _ p hn) hp
      · rcases hC q2 hq2 p hp hn with h | h
        · exact Or.inl h
        · exact Or.inr (hR4.pushed_mono p h)
    refine ⟨s4, ?_, ⟨hQ4, hG4, hL4, hC4⟩, ?_⟩
    · unfold grow
      rw [hg2]
      exact hs4
    · refine ⟨hR4.qh_eq, ?_, hR4.poppedOf_eq, hR4.pushed_mono, ?_, fun hno => absurd hok hno⟩
      · intro i j hne
        rw [hR4.A2_eq]
        show g2 i j = s.A2 i j
        rw [hspec]
        exact if_neg (fun hc => hne hc.1)
      · intro _
        refine ⟨hR4.placed_eq, hR4.placedOf_eq, hR4.touchedOf_eq, ?_⟩
        intro i j h0 hf
        rw [hR4.A2_eq]
        exact (hG3.grid_iff i j).2 ⟨cur, List.mem_cons_self _ _, hf⟩
  · rw [if_neg hok]
    refine ⟨_, rfl, ⟨hQ.transfer rfl rfl rfl rfl rfl rfl rfl rfl, hG.carry rfl rfl rfl rfl,
      hL.move rfl rfl rfl rfl, hC.shift rfl rfl⟩, ?_⟩
    exact ⟨rfl, fun _ _ _ => rfl, rfl, fun _ h => h, fun h => absurd h hok,
      fun _ => ⟨rfl, rfl, rfl, rfl, rfl, rfl⟩⟩

theorem loop_cond_iff (mb : Int) (s : St) :
    loop_cond mb s = true ↔ s.qh < s.qt ∧ s.placed < mb := by
  unfold loop_cond
  simp only [Bool.and_eq_true, decide_eq_true_eq]

/-- One iteration of the growth loop, started in a state that satisfies the invariant and
has a non-empty unprocessed range, makes only in-range accesses and re-establishes the
invariant. -/
theorem body_inv (rng : Nat → Nat) (pp : Int) (s : St) (h : Inv s) (hlt : s.qh < s.qt) :
    ∃ s2, loop_body rng pp s = some s2 ∧ Inv s2 ∧ StepRel rng pp s s2 := by
  obtain ⟨hQ, hG, hL, hC⟩ := h
  have hqt := hQ.qt_le
  have hq0 := hQ.qh_nonneg
  have hm0 : 0 ≤ (rng s.rc : Int) % (s.qt - s.qh) := Int.emod_nonneg _ (by omega)
  have hm1 : (rng s.rc : Int) % (s.qt - s.qh) < s.qt - s.qh := Int.emod_lt_of_pos _ (by omega)
  have hpop := pop_eq { s with rc := s.rc + 1 } (rng s.rc : Int) (by omega) hlt hq0
    (by simp only [FRONT_CAP]; omega)
  have hQr : QInv { s with rc := s.rc + 1 } := hQ.transfer rfl rfl rfl rfl rfl rfl rfl rfl
  have hcq : cur_of rng s ∈ queue s := by
    rw [mem_queue]
    exact ⟨_, by omega, by omega, rfl⟩
  obtain ⟨hf1, hf2⟩ := hQ.mem_queue_fresh _ hcq
  have hf3 : cur_of rng s ∉ placedOf s.trace := by
    intro hc
    rcases hL.placed_sub _ hc with h | h
    · exact (hQ.lat _ hf1).2 h
    · exact hf2 h
  have hQ1 : QInv (pop_ok { s with rc := s.rc + 1 } ((rng s.rc : Int) % (s.qt - s.qh))) :=
    QInv_pop_ok _ _ hQr hm0 hm1
  have hG1 : GInv (pop_ok { s with rc := s.rc + 1 } ((rng s.rc : Int) % (s.qt - s.qh))) :=
    hG.carry rfl rfl rfl rfl
  have hL1 : LInv (pop_ok { s with rc := s.rc + 1 } ((rng s.rc : Int) % (s.qt - s.qh))) := by
    refine ⟨?_, ?_, hL.nbr⟩
    · intro p hp
      rcases hL.placed_sub p hp with h | h
      · exact Or.inl h
      · exact Or.inr (List.mem_cons_of_mem _ h)
    · intro p hp
      exact List.mem_cons_of_mem _ (hL.touched_sub p hp)
  have hC1 : Closed (pop_ok { s with rc := s.rc + 1 } ((rng s.rc : Int) % (s.qt - s.qh))) :=
    hC.shift rfl rfl
  obtain ⟨s2, hs2, hI2, hR2⟩ := gate_inv rng pp _ (cur_of rng s) hQ1 hG1 hL1 hC1 hf1
    (List.mem_cons_self _ _) hf3
  refine ⟨s2, ?_, hI2, ?_⟩
  · unfold loop_body
    simp only [rand]
    rw [hpop]
    exact hs2
  · exact ⟨hR2.qh_eq, hR2.grid_mono, hR2.popped_eq, hR2.pushed_mono, hR2.accept, hR2.reject⟩

/-! ## Invariant: initialisation -/

theorem cell_of_eq_zero (p : Pos) (hp : on_lattice p) : cell_of p = 0 ↔ p = seed := by
  constructor
  · intro h
    exact cell_of_inj p seed hp seed_on_lattice (by rw [h]; rfl)
  · rintro rfl
    rfl

theorem main_init_eq (rng : Nat → Nat) :
    ∃ F : Grid, ∃ n : Nat, ∃ g2 : Grid,
      (∀ r c, 0 ≤ r → r < 8 → 0 ≤ c → c < 13 → 1 ≤ F r c ∧ F r c ≤ 4) ∧
      (∀ i j, g2 i j =
        if (pre_seed F n).A2 i j = 0 ∧ in_footprint seed i j then
          (sample_A3_from_A1 rng (pre_seed F n)).A3 (i - seed.y) (j - seed.x)
        else (pre_seed F n).A2 i j) ∧
      main_init rng =
        push4 (seeded rng F n g2) ⟨5 + TILE, 5⟩ ⟨5, 5 + TILE⟩ ⟨5 - TILE, 5⟩ ⟨5, 5 - TILE⟩ := by
  obtain ⟨F, n, hF, hr⟩ := gen_A1_eq rng St.zero
  obtain ⟨g2, hg2, hspec⟩ := place_at_eq rng (pre_seed F n) seed (by decide) (by decide)
    (by decide) (by decide)
  refine ⟨F, n, g2, hr, hspec, ?_⟩
  unfold main_init
  simp only [hF]
  have e3 : ({ ({ ({ ({ St.zero with A1 := F, rc := n } : St) with A2 := fun _ _ => 0 } : St)
      with gridW := Int.tdiv (A2_N - 5 + TILE - 1) TILE,
           gridH := Int.tdiv (A2_N - 5 + TILE - 1) TILE } : St)
      with seen := fun _ => 0, placed := 0 } : St) = pre_seed F n := rfl
  rw [e3]
  have hg2b : place_at rng (pre_seed F n) ⟨5, 5⟩ = some (place_ok rng (pre_seed F n) seed g2) :=
    hg2
  rw [hg2b]
  simp only [Option.some_bind]
  have hk : idx (place_ok rng (pre_seed F n) seed g2) 5 5 = 0 := by
    unfold idx
    show (if Int.tdiv (5 - 5) TILE < 0 ∨ Int.tdiv (5 - 5) TILE < 0 ∨
        Int.tdiv (5 - 5) TILE ≥ 55 ∨ Int.tdiv (5 - 5) TILE ≥ 55 then (-1 : Int)
      else Int.tdiv (5 - 5) TILE * 55 + Int.tdiv (5 - 5) TILE) = 0
    decide
  rw [hk, if_pos (by decide)]
  have hw : wrSeen (place_ok rng (pre_seed F n) seed g2) 0 1 = some (seeded rng F n g2) := by
    unfold wrSeen
    have hin : (0 : Int) ≤ 0 ∧ (0 : Int) < (place_ok rng (pre_seed F n) seed g2).gridW *
        (place_ok rng (pre_seed F n) seed g2).gridH := by
      show (0 : Int) ≤ 0 ∧ (0 : Int) < 55 * 55
      decide
    rw [if_pos hin]
    rfl
  rw [hw]
  simp only [Option.some_bind]

theorem seeded_inv (rng : Nat → Nat) (F : Grid) (n : Nat) (g2 : Grid)
    (hr : ∀ r c, 0 ≤ r → r < 8 → 0 ≤ c → c < 13 → 1 ≤ F r c ∧ F r c ≤ 4)
    (hspec : ∀ i j, g2 i j =
        if (pre_seed F n).A2 i j = 0 ∧ in_footprint seed i j then
          (sample_A3_from_A1 rng (pre_seed F n)).A3 (i - seed.y) (j - seed.x)
        else (pre_seed F n).A2 i j) :
    QInv (seeded rng F n g2) ∧ GInv (seeded rng F n g2) ∧ LInv (seeded rng F n g2) := by
  refine ⟨⟨rfl, rfl, le_refl _, le_refl _, rfl, List.nodup_nil, ?_, ?_, ?_⟩, ?_, ⟨?_, ?_, ?_⟩⟩
  · intro p hp
    exact absurd hp (List.not_mem_nil p)
  · intro p hp
    show (if cell_of p = 0 then (1 : Int) else 0) ≠ 0 ↔ p = seed ∨ p ∈ ([] : List Pos)
    rw [← cell_of_eq_zero p hp]
    by_cases hc : cell_of p = 0
    · simp [hc]
    · simp [hc]
  · exact List.Perm.refl _
  · have hG : GInv (place_ok rng (pre_seed F n) seed g2) :=
      GInv_place_ok rng (pre_seed F n) seed g2 hspec rfl List.nodup_nil
        (fun q hq => absurd hq (List.not_mem_nil q)) (List.mem_cons_self _ _) hr
        (fun i j => by
          constructor
          · intro h; exact absurd rfl h
          · rintro ⟨q, hq, _⟩; exact absurd hq (List.not_mem_nil q))
        (fun i j => by
          show (0 : Int) ≤ 0 ∧ (0 : Int) ≤ 4
          omega)
        seed_on_lattice (List.not_mem_nil _)
    exact hG.carry rfl rfl rfl rfl
  · intro p hp
    exact Or.inl (List.mem_singleton.1 hp)
  · intro p hp
    exact absurd hp (List.not_mem_nil p)
  · intro p hp
    exact absurd hp (List.not_mem_nil p)

/-- The state in which the growth loop starts: the invariant holds, nothing has been
popped, and the seed is the only block. -/
theorem init_inv (rng : Nat → Nat) :
    ∃ s, main_init rng = some s ∧ Inv s ∧ s.qh = 0 ∧ s.placed = 1 ∧
      placedOf s.trace = [seed] ∧ poppedOf s.trace = [] ∧ touchedOf s.trace = [] := by
  obtain ⟨F, n, g2, hr, hspec, hmain⟩ := main_init_eq rng
  obtain ⟨hQ, hG, hL⟩ := seeded_inv rng F n g2 hr hspec
  obtain ⟨s, hs, hQ4, hG4, hL4, hR4, hS4⟩ := push4_inv (seeded rng F n g2) seed
    ⟨5 + TILE, 5⟩ ⟨5, 5 + TILE⟩ ⟨5 - TILE, 5⟩ ⟨5, 5 - TILE⟩ hQ hG hL (List.mem_cons_self _ _)
    (Or.inl ⟨rfl, rfl⟩) (Or.inr (Or.inr (Or.inl ⟨rfl, rfl⟩))) (Or.inr (Or.inl ⟨rfl, rfl⟩))
    (Or.inr (Or.inr (Or.inr ⟨rfl, rfl⟩)))
  refine ⟨s, by rw [hmain, hs], ⟨hQ4, hG4, hL4, ?_⟩, hR4.qh_eq, hR4.placed_eq,
    hR4.placedOf_eq, hR4.poppedOf_eq, hR4.touchedOf_eq⟩
  intro q hq p hp hn
  rw [hR4.placedOf_eq] at hq
  have hqs : q = seed := List.mem_singleton.1 hq
  subst hqs
  refine hS4 p ?_ hp
  rcases is_nbr_cases _ p hn with h | h | h | h
  · exact Or.inl h
  · exact Or.inr (Or.inr (Or.inl h))
  · exact Or.inr (Or.inl h)
  · exact Or.inr (Or.inr (Or.inr h))

/-! ## The growth loop -/

theorem growth_loop_done (rng : Nat → Nat) (mb pp : Int) (n : Nat) (s : St)
    (h : loop_cond mb s = false) : growth_loop rng mb pp n s = some s := by
  cases n with
  | zero => rfl
  | succ k => simp only [growth_loop, h, Bool.false_eq_true, if_false]

theorem growth_loop_add (rng : Nat → Nat) (mb pp : Int) (m k : Nat) :
    ∀ s, growth_loop rng mb pp (m + k) s =
      (growth_loop rng mb pp m s).bind (growth_loop rng mb pp k) := by
  induction m with
  | zero =>
    intro s
    simp only [Nat.zero_add, growth_loop, Option.some_bind]
  | succ j ih =>
    intro s
    have e : j + 1 + k = (j + k) + 1 := by omega
    rw [e]
    simp only [growth_loop]
    by_cases hc : loop_cond mb s = true
    · simp only [hc, if_true]
      cases hb : loop_body rng pp s with
      | none => rfl
      | some s1 => exact ih s1
    · have hc2 : loop_cond mb s = false := by simpa using hc
      simp only [hc2, Bool.false_eq_true, if_false, Option.some_bind]
      exact (growth_loop_done rng mb pp k s hc2).symm

/-- Induction along the growth loop: a property that holds at loop entry and is carried
over by every iteration holds in the state returned after any amount of fuel, together
with the loop invariant; the run performs only in-range accesses, and it either has left
the loop or has advanced the head once per unit of fuel. -/
theorem growth_induct (rng : Nat → Nat) (mb pp : Int) (P : St → Prop)
    (hstep : ∀ s s2, Inv s → P s → loop_cond mb s = true → loop_body rng pp s = some s2 →
      Inv s2 → StepRel rng pp s s2 → P s2) :
    ∀ (n : Nat) (s : St), Inv s → P s →
      ∃ s2, growth_loop rng mb pp n s = some s2 ∧ Inv s2 ∧ P s2 ∧
        (loop_cond mb s2 = false ∨ s2.qh = s.qh + n) := by
  intro n
  induction n with
  | zero =>
    intro s hI hP
    exact ⟨s, rfl, hI, hP, Or.inr (by simp)⟩
  | succ k ih =>
    intro s hI hP
    by_cases hc : loop_cond mb s = true
    · obtain ⟨s1, hb, hI1, hR1⟩ := body_inv rng pp s hI ((loop_cond_iff mb s).1 hc).1
      obtain ⟨s2, hg, hI2, hP2, hend⟩ := ih s1 hI1 (hstep s s1 hI hP hc hb hI1 hR1)
      refine ⟨s2, ?_, hI2, hP2, ?_⟩
      · simp only [growth_loop, hc, if_true, hb]
        exact hg
      · rcases hend with h | h
        · exact Or.inl h
        · right
          rw [h, hR1.qh_succ]
          push_cast
          omega
    · have hc2 : loop_cond mb s = false := by simpa using hc
      exact ⟨s, growth_loop_done rng mb pp _ s hc2, hI, hP, Or.inl hc2⟩

/-- Induction along a run from its initial state. -/
theorem state_at_induct (rng : Nat → Nat) (mb pp : Int) (P : St → Prop)
    (hinit : ∀ s, main_init rng = some s → Inv s → s.qh = 0 → s.placed = 1 →
      placedOf s.trace = [seed] → poppedOf s.trace = [] → P s)
    (hstep : ∀ s s2, Inv s → P s → loop_cond mb s = true → loop_body rng pp s = some s2 →
      Inv s2 → StepRel rng pp s s2 → P s2) (n : Nat) :
    ∃ s, state_at rng mb pp n = some s ∧ Inv s ∧ P s ∧
      (loop_cond mb s = false ∨ s.qh = n) := by
  obtain ⟨s0, h0, hI0, hq0, hp0, hpl0, hpo0, _⟩ := init_inv rng
  obtain ⟨s, hs, hI, hP, hend⟩ := growth_induct rng mb pp P hstep n s0 hI0
    (hinit s0 h0 hI0 hq0 hp0 hpl0 hpo0)
  refine ⟨s, ?_, hI, hP, ?_⟩
  · unfold state_at
    rw [h0]
    exact hs
  · rw [hq0] at hend
    simpa using hend

/-- Once the head has advanced 3024 times the queue is exhausted. -/
theorem loop_cond_false_of_qh (mb : Int) (s : St) (hI : Inv s)
    (h : loop_cond mb s = false ∨ s.qh = (3024 : Nat)) : loop_cond mb s = false := by
  rcases h with h | h
  · exact h
  · have h1 := hI.1.qt_le
    have h2 := hI.1.qh_le
    cases hc : loop_cond mb s with
    | false => rfl
    | true =>
      have := ((loop_cond_iff mb s).1 hc).1
      omega

theorem state_at_add (rng : Nat → Nat) (mb pp : Int) (m k : Nat) :
    state_at rng mb pp (m + k) = (state_at rng mb pp m).bind (growth_loop rng mb pp k) := by
  unfold state_at
  cases main_init rng with
  | none => rfl
  | some s => exact growth_loop_add rng mb pp m k s

/-! ## Whole-run properties -/

/-- The invariant holds in every state of a run. -/
theorem state_at_inv (rng : Nat → Nat) (mb pp : Int) (n : Nat) :
    ∃ s, state_at rng mb pp n = some s ∧ Inv s ∧ (loop_cond mb s = false ∨ s.qh = n) := by
  obtain ⟨s, hs, hI, _, hend⟩ := state_at_induct rng mb pp (fun _ => True)
    (fun _ _ _ _ _ _ _ => trivial) (fun _ _ _ _ _ _ _ _ => trivial) n
  exact ⟨s, hs, hI, hend⟩

/-- C5. Seen-once invariant: at every point of every run (any random stream, budget and
probability; `n` iterations into the loop, or at loop exit once the loop has ended) the
history of positions appended to the frontier queue by `push` has no duplicates and does
not contain the seed (5,5); consequently the history of popped positions has no duplicates
either, and every popped position was pushed before. -/
theorem seen_once (rng : Nat → Nat) (mb pp : Int) (n : Nat) :
    ∃ s, state_at rng mb pp n = some s ∧
      (pushedOf s.trace).Nodup ∧ seed ∉ pushedOf s.trace ∧
      (poppedOf s.trace).Nodup ∧ (∀ p ∈ poppedOf s.trace, p ∈ pushedOf s.trace) := by
  obtain ⟨s, hs, hI, _⟩ := state_at_inv rng mb pp n
  exact ⟨s, hs, hI.1.nodup, fun hc => (hI.1.lat seed hc).2 rfl, hI.1.popped_nodup,
    hI.1.popped_sub⟩

/-- C6. Non-overwrite invariant: for every run and all `m ≤ n`, a grid cell that is
nonzero after `m` iterations of the growth loop holds the same value after `n` iterations;
this includes the final grid, which is the grid of `state_at` for every `n ≥ 3024`. -/
theorem non_overwrite (rng : Nat → Nat) (mb pp : Int) (m n : Nat) (hmn : m ≤ n) :
    ∃ s s2, state_at rng mb pp m = some s ∧ state_at rng mb pp n = some s2 ∧
      ∀ i j, s.A2 i j ≠ 0 → s2.A2 i j = s.A2 i j := by
  obtain ⟨s, hs, hI, _⟩ := state_at_inv rng mb pp m
  obtain ⟨k, rfl⟩ : ∃ k, n = m + k := ⟨n - m, by omega⟩
  obtain ⟨s2, hs2, _, hP, _⟩ := growth_induct rng mb pp
    (fun t => ∀ i j, s.A2 i j ≠ 0 → t.A2 i j = s.A2 i j)
    (fun a b _ hPa _ _ _ hR i j hne => by
      rw [hR.grid_mono i j (by rw [hPa i j hne]; exact hne)]
      exact hPa i j hne)
    k s hI (fun _ _ _ => rfl)
  refine ⟨s, s2, hs, ?_, hP⟩
  rw [state_at_add, hs]
  exact hs2

/-- Witness of C6: the run with the constant random stream, between loop entry and the
first iteration. -/
theorem non_overwrite_witness :
    (0 : Nat) ≤ 1 ∧
    ∃ s s2, state_at rng_const 1200 70 0 = some s ∧ state_at rng_const 1200 70 1 = some s2 ∧
      ∀ i j, s.A2 i j ≠ 0 → s2.A2 i j = s.A2 i j :=
  ⟨by decide, non_overwrite rng_const 1200 70 0 1 (by decide)⟩

/-- C7. Placement counter: for `max_blocks ≥ 1` (any random stream, any probability) the
loop has ended after at most 3024 iterations with `1 ≤ placed ≤ max_blocks`, and `placed`
is the number of `place_block` calls made; moreover every iteration either places a block
(one more `place_block` call, counter plus one) or discards its entry (no call, counter
unchanged). -/
theorem placed_bounds (rng : Nat → Nat) (mb pp : Int) (hmb : 1 ≤ mb) :
    (∃ s, state_at rng mb pp 3024 = some s ∧ loop_cond mb s = false ∧
      1 ≤ s.placed ∧ s.placed ≤ mb ∧ s.placed = (placedOf s.trace).length) ∧
    (∀ n, ∃ s s2, state_at rng mb pp n = some s ∧ state_at rng mb pp (n + 1) = some s2 ∧
      s.placed = (placedOf s.trace).length ∧ s2.placed = (placedOf s2.trace).length ∧
      ((∃ p, placedOf s2.trace = p :: placedOf s.trace ∧ s2.placed = s.placed + 1) ∨
        (placedOf s2.trace = placedOf s.trace ∧ s2.placed = s.placed))) := by
  constructor
  · obtain ⟨s, hs, hI, hP, hend⟩ := state_at_induct rng mb pp (fun t => t.placed ≤ mb)
      (fun s _ _ _ hp _ _ => by
        show s.placed ≤ mb
        rw [hp]; exact hmb)
      (fun a b _ _ hc _ _ hR => by
        show b.placed ≤ mb
        have h1 := ((loop_cond_iff mb a).1 hc).2
        by_cases hok : roll_ok rng pp a
        · rw [(hR.accept hok).1]; omega
        · rw [(hR.reject hok).1]; omega)
      3024
    refine ⟨s, hs, loop_cond_false_of_qh mb s hI hend, ?_, hP, hI.2.1.placed_len⟩
    rw [hI.2.1.placed_len]
    have := List.length_pos_of_mem hI.2.1.seed_placed
    omega
  · intro n
    obtain ⟨s, hs, hI, _⟩ := state_at_inv rng mb pp n
    by_cases hc : loop_cond mb s = true
    · obtain ⟨s2, hb, hI2, hR⟩ := body_inv rng pp s hI ((loop_cond_iff mb s).1 hc).1
      refine ⟨s, s2, hs, ?_, hI.2.1.placed_len, hI2.2.1.placed_len, ?_⟩
      · rw [state_at_add, hs]
        simp only [Option.some_bind, growth_loop, hc, if_true, hb]
      · by_cases hok : roll_ok rng pp s
        · exact Or.inl ⟨_, (hR.accept hok).2.1, (hR.accept hok).1⟩
        · exact Or.inr ⟨(hR.reject hok).2.1, (hR.reject hok).1⟩
    · have hc2 : loop_cond mb s = false := by simpa using hc
      refine ⟨s, s, hs, ?_, hI.2.1.placed_len, hI.2.1.placed_len, Or.inr ⟨rfl, rfl⟩⟩
      rw [state_at_add, hs]
      exact growth_loop_done rng mb pp 1 s hc2

/-- Witness of C7: the default budget 1200 with probability 70. -/
theorem placed_bounds_witness :
    (1 : Int) ≤ 1200 ∧
    ((∃ s, state_at rng_const 1200 70 3024 = some s ∧ loop_cond 1200 s = false ∧
      1 ≤ s.placed ∧ s.placed ≤ 1200 ∧ s.placed = (placedOf s.trace).length) ∧
    (∀ n, ∃ s s2, state_at rng_const 1200 70 n = some s ∧
      state_at rng_const 1200 70 (n + 1) = some s2 ∧
      s.placed = (placedOf s.trace).length ∧ s2.placed = (placedOf s2.trace).length ∧
      ((∃ p, placedOf s2.trace = p :: placedOf s.trace ∧ s2.placed = s.placed + 1) ∨
        (placedOf s2.trace = placedOf s.trace ∧ s2.placed = s.placed)))) :=
  ⟨by decide, placed_bounds rng_const 1200 70 (by decide)⟩

/-- C8. Bounds safety: at every point of every run the computation has performed only
in-range accesses to the grid, the seen array and the frontier buffer (the run is
`some _`, whereas any out-of-range access makes it `none`); every position passed to
`touches_existing` or `place_block` satisfies `5 ≤ x ≤ 221`, `5 ≤ y ≤ 221` with both
coordinates congruent to 5 modulo 4, so its whole footprint lies in the grid; every pushed
position has its seen index in `[0, 55*55)`; and `0 ≤ qh ≤ qt ≤ 3024`, far below the
capacity `2^20` of the frontier buffer. -/
theorem bounds_safety (rng : Nat → Nat) (mb pp : Int) (n : Nat) :
    ∃ s, state_at rng mb pp n = some s ∧
      (∀ p, p ∈ touchedOf s.trace ∨ p ∈ placedOf s.trace →
        (5 ≤ p.x ∧ p.x ≤ 221 ∧ p.x % 4 = 5 % 4) ∧ (5 ≤ p.y ∧ p.y ≤ 221 ∧ p.y % 4 = 5 % 4) ∧
        ∀ r c, 0 ≤ r → r < 4 → 0 ≤ c → c < 4 → in_grid (p.y + r) (p.x + c)) ∧
      (∀ p ∈ pushedOf s.trace, idx s p.x p.y = cell_of p ∧
        0 ≤ cell_of p ∧ cell_of p < 55 * 55) ∧
      s.gridW * s.gridH = 55 * 55 ∧
      0 ≤ s.qh ∧ s.qh ≤ s.qt ∧ s.qt ≤ 3024 ∧ (3024 : Int) < FRONT_CAP := by
  obtain ⟨s, hs, hI, _⟩ := state_at_inv rng mb pp n
  obtain ⟨hQ, hG, hL, _⟩ := hI
  refine ⟨s, hs, ?_, ?_, by rw [hQ.gridW, hQ.gridH], hQ.qh_nonneg, hQ.qh_le, hQ.qt_le,
    by decide⟩
  · intro p hp
    have hl : on_lattice p := by
      rcases hp with hp | hp
      · exact (hQ.lat p (hQ.popped_sub p (hL.touched_sub p hp))).1
      · exact hG.placed_lat p hp
    unfold on_lattice at hl
    refine ⟨by omega, by omega, ?_⟩
    intro r c hr0 hr1 hc0 hc1
    unfold in_grid
    simp only [A2_N]
    omega
  · intro p hp
    have hl := (hQ.lat p hp).1
    have hr := cell_of_range p hl
    have hl2 := hl
    unfold on_lattice at hl2
    refine ⟨?_, hr.1, by omega⟩
    rw [idx_eq s p.x p.y hQ.gridW hQ.gridH (by omega) (by omega), if_pos hl]

/-- C9. Termination: for every random stream, budget and probability, 3024 iterations of
fuel suffice for the growth loop to reach a state in which its condition is false, without
any out-of-range access; the number of iterations executed (one pop each) equals the final
head and is at most 3024; more fuel does not change the result. -/
theorem growth_terminates (rng : Nat → Nat) (mb pp : Int) :
    ∃ s, state_at rng mb pp 3024 = some s ∧ loop_cond mb s = false ∧
      s.qh = (poppedOf s.trace).length ∧ (poppedOf s.trace).length ≤ 3024 ∧
      ∀ n, 3024 ≤ n → state_at rng mb pp n = some s := by
  obtain ⟨s, hs, hI, hend⟩ := state_at_inv rng mb pp 3024
  have hc := loop_cond_false_of_qh mb s hI hend
  refine ⟨s, hs, hc, hI.1.qh_eq, ?_, ?_⟩
  · have h1 := hI.1.qh_eq
    have h2 := hI.1.qh_le
    have h3 := hI.1.qt_le
    omega
  · intro n hn
    obtain ⟨k, rfl⟩ : ∃ k, n = 3024 + k := ⟨n - 3024, by omega⟩
    rw [state_at_add, hs]
    exact growth_loop_done rng mb pp k s hc

/-! ## Full-probability growth -/

/-- With an empty unprocessed range, every pushed position has been popped. -/
theorem QInv.pushed_popped {s : St} (h : QInv s) (he : s.qh = s.qt) (p : Pos)
    (hp : p ∈ pushedOf s.trace) : p ∈ poppedOf s.trace := by
  have hq : queue s = [] := by
    apply List.eq_nil_of_length_eq_zero
    rw [queue_length]
    omega
  have hperm := h.perm
  rw [hq, List.nil_append] at hperm
  exact (hperm.mem_iff).2 hp

/-- When every popped entry was placed and the queue is exhausted, the lattice is full. -/
theorem exhausted_full (s : St) (hI : Inv s) (he : s.qh = s.qt)
    (hpl : ∀ p ∈ poppedOf s.trace, p ∈ placedOf s.trace) :
    s.qt = 3024 ∧ ∀ p, on_lattice p → p ∈ placedOf s.trace ∧
      ∀ i j, in_footprint p i j → s.A2 i j ≠ 0 := by
  obtain ⟨hQ, hG, hL, hC⟩ := hI
  have hin : ∀ p, p = seed ∨ p ∈ pushedOf s.trace → p ∈ placedOf s.trace := by
    rintro p (rfl | hp)
    · exact hG.seed_placed
    · exact hpl p (hQ.pushed_popped he p hp)
  have hall : ∀ p, on_lattice p → p = seed ∨ p ∈ pushedOf s.trace :=
    lattice_connected (fun p => p = seed ∨ p ∈ pushedOf s.trace) (Or.inl rfl)
      (fun q _ hq p hp hn => hC q (hin q hq) p hp hn)
  refine ⟨?_, ?_⟩
  · have := length_eq_of_lattice _ hQ.nodup hQ.lat hall
    rw [hQ.qt_len, this]
    rfl
  · intro p hp
    have hpp := hin p (hall p hp)
    exact ⟨hpp, fun i j hf => (hG.grid_iff i j).2 ⟨p, hpp, hf⟩⟩

/-- C10. Full-probability growth: for every random stream and every `max_blocks ≥ 1`,
with place probability 100 the loop ends (within 3024 iterations, all accesses in range)
with `placed = min(max_blocks, 3025)`, where 3025 is the number of lattice positions
`(5 + 4i, 5 + 4j)`, `0 ≤ i, j < 55`; for `max_blocks > 3025` the loop ends with the queue
exhausted and a block on every lattice position, all 16 cells of each nonzero. -/
theorem full_probability_count (rng : Nat → Nat) (mb : Int) (hmb : 1 ≤ mb) :
    ∃ s, state_at rng mb 100 3024 = some s ∧ loop_cond mb s = false ∧
      s.placed = min mb 3025 ∧ lattice.card = 3025 ∧
      (3025 < mb → s.qh = s.qt ∧ s.placed < mb ∧
        ∀ p, on_lattice p → p ∈ placedOf s.trace ∧
          ∀ i j, in_footprint p i j → s.A2 i j ≠ 0) := by
  obtain ⟨s, hs, hI, hP, hend⟩ := state_at_induct rng mb 100
    (fun t => t.placed = 1 + t.qh ∧ t.placed ≤ mb ∧
      ∀ p ∈ poppedOf t.trace, p ∈ placedOf t.trace)
    (fun s _ _ hq hp _ hpo => by
      refine ⟨by rw [hp, hq]; rfl, by rw [hp]; exact hmb, ?_⟩
      intro p hpp
      rw [hpo] at hpp
      exact absurd hpp (List.not_mem_nil p))
    (fun a b _ hPa hc _ _ hR => by
      have h1 := ((loop_cond_iff mb a).1 hc).2
      have hok : roll_ok rng 100 a := by
        unfold roll_ok
        omega
      obtain ⟨e1, e2, _, _⟩ := hR.accept hok
      refine ⟨by rw [e1, hR.qh_succ, hPa.1]; omega, by rw [e1]; omega, ?_⟩
      intro p hp
      rw [hR.popped] at hp
      rw [e2]
      rcases List.mem_cons.1 hp with h | h
      · rw [h]; exact List.mem_cons_self _ _
      · exact List.mem_cons_of_mem _ (hPa.2.2 p h))
    3024
  obtain ⟨hp1, hp2, hp3⟩ := hP
  have hc := loop_cond_false_of_qh mb s hI hend
  have hqle := hI.1.qh_le
  have hqt := hI.1.qt_le
  have hcases : s.qh = s.qt ∨ s.placed = mb := by
    by_contra hno
    have hlc : loop_cond mb s = true := by
      rw [loop_cond_iff]
      omega
    rw [hc] at hlc
    exact Bool.false_ne_true hlc
  refine ⟨s, hs, hc, ?_, card_lattice, ?_⟩
  · rcases hcases with he | he
    · have := (exhausted_full s hI he hp3).1
      rw [min_def]
      split_ifs <;> omega
    · rw [min_def]
      split_ifs <;> omega
  · intro hbig
    have he : s.qh = s.qt := by
      rcases hcases with he | he
      · exact he
      · omega
    exact ⟨he, by omega, (exhausted_full s hI he hp3).2⟩

/-- Witness of C10: the default budget 1200. -/
theorem full_probability_count_witness :
    (1 : Int) ≤ 1200 ∧
    ∃ s, state_at rng_const 1200 100 3024 = some s ∧ loop_cond 1200 s = false ∧
      s.placed = min 1200 3025 ∧ lattice.card = 3025 ∧
      (3025 < (1200 : Int) → s.qh = s.qt ∧ s.placed < 1200 ∧
        ∀ p, on_lattice p → p ∈ placedOf s.trace ∧
          ∀ i j, in_footprint p i j → s.A2 i j ≠ 0) :=
  ⟨by decide, full_probability_count rng_const 1200 (by decide)⟩

/-! ## Header/body round trip -/

/-- Footprints of distinct lattice positions do not share a cell. -/
theorem footprint_disjoint (p q : Pos) (hp : on_lattice p) (hq : on_lattice q) (i j : Int)
    (h1 : in_footprint p i j) (h2 : in_footprint q i j) : p = q := by
  obtain ⟨px, py⟩ := p
  obtain ⟨qx, qy⟩ := q
  unfold on_lattice at hp hq
  unfold in_footprint at h1 h2
  simp only at hp hq h1 h2
  have e1 : px = qx := by omega
  have e2 : py = qy := by omega
  rw [e1, e2]

theorem region_full_iff (g : Grid) (p : Pos) :
    region_full g p ↔ ∀ i j, in_footprint p i j → g i j ≠ 0 := by
  unfold region_full in_footprint
  constructor
  · intro h i j hf
    have := h (i - p.y, j - p.x) ((mem_loop_rc _ _ _ _).2 (by simp only [TILE]; omega))
    simp only at this
    have e1 : p.y + (i - p.y) = i := by omega
    have e2 : p.x + (j - p.x) = j := by omega
    rw [e1, e2] at this
    exact this
  · rintro h ⟨r, c⟩ hrc
    have hm := (mem_loop_rc _ _ _ _).1 hrc
    simp only [TILE] at hm
    exact h _ _ (by omega)

theorem region_empty_iff (g : Grid) (p : Pos) :
    region_empty g p ↔ ∀ i j, in_footprint p i j → g i j = 0 := by
  unfold region_empty in_footprint
  constructor
  · intro h i j hf
    have := h (i - p.y, j - p.x) ((mem_loop_rc _ _ _ _).2 (by simp only [TILE]; omega))
    simp only at this
    have e1 : p.y + (i - p.y) = i := by omega
    have e2 : p.x + (j - p.x) = j := by omega
    rw [e1, e2] at this
    exact this
  · rintro h ⟨r, c⟩ hrc
    have hm := (mem_loop_rc _ _ _ _).1 hrc
    simp only [TILE] at hm
    exact h _ _ (by omega)

/-- In a state that satisfies the grid invariant, the region of a lattice position is full
when a block was placed there and empty otherwise. -/
theorem GInv.region (s : St) (hG : GInv s) (p : Pos) (hp : on_lattice p) :
    (p ∈ placedOf s.trace → region_full s.A2 p) ∧
    (p ∉ placedOf s.trace → region_empty s.A2 p) := by
  constructor
  · intro hm
    rw [region_full_iff]
    exact fun i j hf => (hG.grid_iff i j).2 ⟨p, hm, hf⟩
  · intro hm
    rw [region_empty_iff]
    intro i j hf
    by_contra hne
    obtain ⟨q, hq, hfq⟩ := (hG.grid_iff i j).1 hne
    have := footprint_disjoint p q hp (hG.placed_lat q hq) i j hf hfq
    rw [this] at hm
    exact hm hq

theorem GInv.full_iff_placed (s : St) (hG : GInv s) (p : Pos) (hp : on_lattice p) :
    region_full s.A2 p ↔ p ∈ placedOf s.trace := by
  constructor
  · intro hf
    by_contra hm
    have he := ((hG.region s p hp).2 hm)
    rw [region_full_iff] at hf
    rw [region_empty_iff] at he
    have hin : in_footprint p p.y p.x := by unfold in_footprint; omega
    exact hf _ _ hin (he _ _ hin)
  · exact (hG.region s p hp).1

theorem GInv.count_regions (s : St) (hG : GInv s) :
    ((lattice.filter fun p => region_full s.A2 p).card : Int) = s.placed := by
  have he : (lattice.filter fun p => region_full s.A2 p) = (placedOf s.trace).toFinset := by
    ext p
    rw [Finset.mem_filter, mem_lattice, List.mem_toFinset]
    constructor
    · rintro ⟨hp, hf⟩
      exact (hG.full_iff_placed s p hp).1 hf
    · intro hm
      have hp := hG.placed_lat p hm
      exact ⟨hp, (hG.full_iff_placed s p hp).2 hm⟩
  rw [he, List.toFinset_card_of_nodup hG.placed_nodup, hG.placed_len]

theorem card_footprint_cells (p : Pos) : (footprint_cells p).card = 16 := by
  unfold footprint_cells
  rw [Finset.card_product, Int.card_Icc, Int.card_Icc]
  have e1 : (p.y + 3 + 1 - p.y).toNat = 4 := by omega
  have e2 : (p.x + 3 + 1 - p.x).toNat = 4 := by omega
  rw [e1, e2]

theorem mem_footprint_cells (p : Pos) (c : Int × Int) :
    c ∈ footprint_cells p ↔ in_footprint p c.1 c.2 := by
  unfold footprint_cells in_footprint
  rw [Finset.mem_product, Finset.mem_Icc, Finset.mem_Icc]
  omega

theorem GInv.count_cells (s : St) (hG : GInv s) :
    ((grid_cells.filter fun c => s.A2 c.1 c.2 ≠ 0).card : Int) = 16 * s.placed := by
  have he : (grid_cells.filter fun c => s.A2 c.1 c.2 ≠ 0) =
      (placedOf s.trace).toFinset.biUnion footprint_cells := by
    ext c
    rw [Finset.mem_filter, Finset.mem_biUnion, hG.grid_iff]
    constructor
    · rintro ⟨_, q, hq, hf⟩
      exact ⟨q, List.mem_toFinset.2 hq, (mem_footprint_cells q c).2 hf⟩
    · rintro ⟨q, hq, hf⟩
      have hq2 := List.mem_toFinset.1 hq
      have hf2 := (mem_footprint_cells q c).1 hf
      have hl := hG.placed_lat q hq2
      refine ⟨?_, q, hq2, hf2⟩
      unfold grid_cells
      rw [Finset.mem_product, Finset.mem_Icc, Finset.mem_Icc]
      unfold on_lattice at hl
      unfold in_footprint at hf2
      omega
  have hd : ∀ p ∈ (placedOf s.trace).toFinset, ∀ q ∈ (placedOf s.trace).toFinset, p ≠ q →
      Disjoint (footprint_cells p) (footprint_cells q) := by
    intro p hp q hq hne
    rw [Finset.disjoint_left]
    intro c hc1 hc2
    exact hne (footprint_disjoint p q (hG.placed_lat p (List.mem_toFinset.1 hp))
      (hG.placed_lat q (List.mem_toFinset.1 hq)) c.1 c.2 ((mem_footprint_cells p c).1 hc1)
      ((mem_footprint_cells q c).1 hc2))
  rw [he, Finset.card_biUnion hd, Finset.sum_congr rfl (fun p _ => card_footprint_cells p),
    Finset.sum_const, List.toFinset_card_of_nodup hG.placed_nodup, hG.placed_len]
  simp only [smul_eq_mul, Nat.cast_mul, Nat.cast_ofNat]
  ring

/-- C11. Header/body round trip: in the final grid of every run each aligned 4x4 region
with top-left corner on the lattice is entirely zero or entirely nonzero, every cell in
rows 0..4 or columns 0..4 is zero, the number of entirely nonzero aligned regions equals
the placement counter that the header prints, and the number of nonzero cells of the grid
is 16 times that counter. -/
theorem header_body_round_trip (rng : Nat → Nat) (mb pp : Int) :
    ∃ s, state_at rng mb pp 3024 = some s ∧ loop_cond mb s = false ∧
      (∀ p, on_lattice p → region_empty s.A2 p ∨ region_full s.A2 p) ∧
      (∀ i j, (0 ≤ i ∧ i ≤ 4) ∨ (0 ≤ j ∧ j ≤ 4) → s.A2 i j = 0) ∧
      ((lattice.filter fun p => region_full s.A2 p).card : Int) = s.placed ∧
      ((grid_cells.filter fun c => s.A2 c.1 c.2 ≠ 0).card : Int) = 16 * s.placed := by
  obtain ⟨s, hs, hI, hend⟩ := state_at_inv rng mb pp 3024
  have hG := hI.2.1
  refine ⟨s, hs, loop_cond_false_of_qh mb s hI hend, ?_, ?_, hG.count_regions s,
    hG.count_cells s⟩
  · intro p hp
    by_cases hm : p ∈ placedOf s.trace
    · exact Or.inr ((hG.region s p hp).1 hm)
    · exact Or.inl ((hG.region s p hp).2 hm)
  · intro i j hij
    by_contra hne
    obtain ⟨q, hq, hf⟩ := (hG.grid_iff i j).1 hne
    have hl := hG.placed_lat q hq
    unfold on_lattice at hl
    unfold in_footprint at hf
    omega

/-! ## Connectivity -/

/-- The entry chosen by an iteration was pushed as a neighbour of a placed block and has
not been placed itself. -/
theorem cur_of_fresh (rng : Nat → Nat) (s : St) (hI : Inv s) (hlt : s.qh < s.qt) :
    cur_of rng s ∈ queue s ∧ cur_of rng s ∈ pushedOf s.trace ∧
      on_lattice (cur_of rng s) ∧ cur_of rng s ≠ seed ∧
      cur_of rng s ∉ placedOf s.trace ∧
      ∃ q ∈ placedOf s.trace, is_nbr q (cur_of rng s) := by
  obtain ⟨hQ, hG, hL, _⟩ := hI
  have hm0 : 0 ≤ (rng s.rc : Int) % (s.qt - s.qh) := Int.emod_nonneg _ (by omega)
  have hm1 : (rng s.rc : Int) % (s.qt - s.qh) < s.qt - s.qh := Int.emod_lt_of_pos _ (by omega)
  have hcq : cur_of rng s ∈ queue s := by
    rw [mem_queue]
    exact ⟨_, by omega, by omega, rfl⟩
  obtain ⟨hf1, hf2⟩ := hQ.mem_queue_fresh _ hcq
  refine ⟨hcq, hf1, (hQ.lat _ hf1).1, (hQ.lat _ hf1).2, ?_, hL.nbr _ hf1⟩
  intro hc
  rcases hL.placed_sub _ hc with h | h
  · exact (hQ.lat _ hf1).2 h
  · exact hf2 h

theorem grown_from_seed_cons (p : Pos) (L : List Pos) (hL : grown_from_seed L)
    (hn : ∃ r ∈ L, is_nbr r p) : grown_from_seed (p :: L) := by
  cases L with
  | nil => exact absurd hL (by simp [grown_from_seed])
  | cons q rest => exact ⟨hn, hL⟩

/-- In a history grown from the seed, the oldest entry is the seed and every other entry
has a neighbour among the entries older than itself. -/
theorem grown_from_seed_split :
    ∀ (L : List Pos), grown_from_seed L → ∀ (pre : List Pos) (p : Pos) (post : List Pos),
      L = pre ++ p :: post →
      (post = [] → p = seed) ∧ (post ≠ [] → ∃ q ∈ post, is_nbr q p)
  | [], h, _, _, _, _ => absurd h (by simp [grown_from_seed])
  | [a], h, pre, p, post, he => by
    cases pre with
    | nil =>
      simp only [List.nil_append, List.cons.injEq] at he
      obtain ⟨rfl, rfl⟩ := he
      exact ⟨fun _ => h, fun hne => absurd rfl hne⟩
    | cons b pre2 =>
      simp only [List.cons_append, List.cons.injEq] at he
      have := he.2
      cases pre2 <;> simp at this
  | a :: b :: rest, h, pre, p, post, he => by
    cases pre with
    | nil =>
      simp only [List.nil_append, List.cons.injEq] at he
      obtain ⟨rfl, rfl⟩ := he
      exact ⟨fun hc => absurd hc (by simp), fun _ => h.1⟩
    | cons c pre2 =>
      simp only [List.cons_append, List.cons.injEq] at he
      exact grown_from_seed_split (b :: rest) h.2 pre2 p post he.2

/-- In a history grown from the seed every entry is linked to the seed by a path of
neighbour steps through entries of the history. -/
theorem grown_from_seed_connected :
    ∀ (L : List Pos), grown_from_seed L → ∀ p ∈ L,
      Relation.ReflTransGen (fun a b => is_nbr a b ∧ b ∈ L) seed p
  | [], h, _, _ => absurd h (by simp [grown_from_seed])
  | [a], h, p, hp => by
    have hpa : p = a := List.mem_singleton.1 hp
    have ha : a = seed := h
    rw [hpa, ha]
  | a :: b :: rest, h, p, hp => by
    have ih := grown_from_seed_connected (b :: rest) h.2
    have lift : ∀ x, Relation.ReflTransGen (fun u v => is_nbr u v ∧ v ∈ b :: rest) seed x →
        Relation.ReflTransGen (fun u v => is_nbr u v ∧ v ∈ a :: b :: rest) seed x := by
      intro x hx
      exact Relation.ReflTransGen.mono (fun u v huv => ⟨huv.1, List.mem_cons_of_mem _ huv.2⟩) hx
    rcases List.mem_cons.1 hp with hpa | hp2
    · obtain ⟨r, hr, hn⟩ := h.1
      rw [hpa]
      exact Relation.ReflTransGen.tail (lift r (ih r hr)) ⟨hn, List.mem_cons_self _ _⟩
    · exact lift p (ih p hp2)

/-- The placement history of a run is grown from the seed. -/
theorem state_at_grown (rng : Nat → Nat) (mb pp : Int) (n : Nat) :
    ∃ s, state_at rng mb pp n = some s ∧ Inv s ∧ grown_from_seed (placedOf s.trace) := by
  obtain ⟨s, hs, hI, hP, _⟩ := state_at_induct rng mb pp
    (fun t => grown_from_seed (placedOf t.trace))
    (fun s _ _ _ _ hpl _ => by
      show grown_from_seed (placedOf s.trace)
      rw [hpl]
      exact rfl)
    (fun a b hIa hPa hc _ _ hR => by
      show grown_from_seed (placedOf b.trace)
      by_cases hok : roll_ok rng pp a
      · rw [(hR.accept hok).2.1]
        exact grown_from_seed_cons _ _ hPa
          (cur_of_fresh rng a hIa ((loop_cond_iff mb a).1 hc).1).2.2.2.2.2
      · rw [(hR.reject hok).2.1]
        exact hPa)
    n
  exact ⟨s, hs, hI, hP⟩

/-- C12. Connectivity: at every point of every run, in the history of placements (newest
first) the oldest entry is the seed (5,5) and every later entry, that is every block placed
by the growth loop, is a lattice position with an axis-aligned lattice neighbour among the
blocks placed before it; hence the seed is placed and every placed position is linked to
the seed by a path of neighbour steps through placed positions. -/
theorem placed_connected (rng : Nat → Nat) (mb pp : Int) (n : Nat) :
    ∃ s, state_at rng mb pp n = some s ∧
      (∀ pre p post, placedOf s.trace = pre ++ p :: post →
        on_lattice p ∧ (post = [] → p = seed) ∧
        (post ≠ [] → ∃ q ∈ post, on_lattice q ∧ is_nbr q p)) ∧
      seed ∈ placedOf s.trace ∧
      (∀ p ∈ placedOf s.trace,
        Relation.ReflTransGen (fun a b => is_nbr a b ∧ b ∈ placedOf s.trace) seed p) := by
  obtain ⟨s, hs, hI, hg⟩ := state_at_grown rng mb pp n
  have hG := hI.2.1
  refine ⟨s, hs, ?_, hG.seed_placed, grown_from_seed_connected _ hg⟩
  intro pre p post he
  have hsp := grown_from_seed_split _ hg pre p post he
  refine ⟨hG.placed_lat p (by rw [he]; simp), hsp.1, ?_⟩
  intro hne
  obtain ⟨q, hq, hn⟩ := hsp.2 hne
  exact ⟨q, hq, hG.placed_lat q (by rw [he]; simp [hq]), hn⟩

/-! ## The initial state in detail; zero-probability and single-block runs -/

/-- A `push` call leaves the grid and the stamp untouched. -/
theorem push_grids (s : St) (x y : Int) (s2 : St) (h : push s x y = some s2) :
    s2.A3 = s.A3 ∧ s2.A2 = s.A2 := by
  unfold push at h
  simp only [rdSeen, wrSeen, wrFront] at h
  by_cases c1 : (!in_bounds_block x y || !aligned x || !aligned y) = true <;>
  by_cases c2 : idx s x y < 0 <;>
  by_cases c3 : 0 ≤ idx s x y ∧ idx s x y < s.gridW * s.gridH <;>
  by_cases c4 : s.seen (idx s x y) = 0 <;>
  by_cases c5 : 0 ≤ s.qt ∧ s.qt < FRONT_CAP <;>
  simp [c1, c2, c3, c4, c5] at h <;>
  rw [← h] <;>
  exact ⟨rfl, rfl⟩

theorem push4_grids (s : St) (p1 p2 p3 p4 : Pos) (s2 : St)
    (h : push4 s p1 p2 p3 p4 = some s2) : s2.A3 = s.A3 ∧ s2.A2 = s.A2 := by
  unfold push4 at h
  cases ha : push s p1.x p1.y with
  | none => rw [ha] at h; simp at h
  | some a =>
    rw [ha, Option.some_bind] at h
    cases hb : push a p2.x p2.y with
    | none => rw [hb] at h; simp at h
    | some b =>
      rw [hb, Option.some_bind] at h
      cases hc : push b p3.x p3.y with
      | none => rw [hc] at h; simp at h
      | some c =>
        rw [hc, Option.some_bind] at h
        have h4 := push_grids c _ _ s2 h
        have h3 := push_grids b _ _ c hc
        have h2 := push_grids a _ _ b hb
        have h1 := push_grids s _ _ a ha
        exact ⟨by rw [h4.1, h3.1, h2.1, h1.1], by rw [h4.2, h3.2, h2.2, h1.2]⟩

/-- The grid and the stamp in the state in which the growth loop starts: the seed
footprint holds the sampled stamp, which is a 4x4 window of the source pattern, and every
other cell is zero. -/
theorem init_grid (rng : Nat → Nat) :
    ∃ s, main_init rng = some s ∧
      (∀ i j, s.A2 i j = if in_footprint seed i j then s.A3 (i - 5) (j - 5) else 0) ∧
      ∃ r0 c0, (0 ≤ r0 ∧ r0 ≤ 4) ∧ (0 ≤ c0 ∧ c0 ≤ 9) ∧
        ∀ r c, 0 ≤ r → r < 4 → 0 ≤ c → c < 4 →
          s.A3 r c = s.A1 (r0 + r) (c0 + c) ∧ 1 ≤ s.A3 r c ∧ s.A3 r c ≤ 4 := by
  obtain ⟨F, n, g2, hr, hspec, hmain⟩ := main_init_eq rng
  obtain ⟨hQ, hG, hL⟩ := seeded_inv rng F n g2 hr hspec
  obtain ⟨s, hs, _, _, _, hR4, _⟩ := push4_inv (seeded rng F n g2) seed
    ⟨5 + TILE, 5⟩ ⟨5, 5 + TILE⟩ ⟨5 - TILE, 5⟩ ⟨5, 5 - TILE⟩ hQ hG hL (List.mem_cons_self _ _)
    (Or.inl ⟨rfl, rfl⟩) (Or.inr (Or.inr (Or.inl ⟨rfl, rfl⟩))) (Or.inr (Or.inl ⟨rfl, rfl⟩))
    (Or.inr (Or.inr (Or.inr ⟨rfl, rfl⟩)))
  have hA3 : s.A3 = (sample_A3_from_A1 rng (pre_seed F n)).A3 :=
    (push4_grids (seeded rng F n g2) _ _ _ _ s hs).1
  have hA2 : s.A2 = g2 := hR4.A2_eq
  have hA1 : s.A1 = F := hR4.A1_eq
  refine ⟨s, by rw [hmain, hs], ?_, (rng n : Int) % 5, (rng (n + 1) : Int) % 10,
    by omega, by omega, ?_⟩
  · intro i j
    rw [hA2, hspec, hA3]
    by_cases hf : in_footprint seed i j
    · rw [if_pos hf, if_pos ⟨rfl, hf⟩]
      rfl
    · rw [if_neg hf, if_neg (fun hc => hf hc.2)]
      rfl
  · intro r c hr0 hr1 hc0 hc1
    have hst := stamp_range rng (pre_seed F n) hr r c ⟨hr0, hr1⟩ ⟨hc0, hc1⟩
    rw [hA3, hA1]
    refine ⟨?_, hst⟩
    rw [sample_eq]
    simp only
    rw [if_pos ⟨⟨hr0, hr1⟩, hc0, hc1⟩]
    rfl

theorem in_footprint_seed (i j : Int) :
    in_footprint seed i j ↔ (5 ≤ i ∧ i < 9) ∧ (5 ≤ j ∧ j < 9) := by
  unfold in_footprint seed
  simp only
  omega

/-- With place probability 0 every roll fails, so the seed stays the only placement. -/
theorem zero_prob_final (rng : Nat → Nat) (mb : Int) :
    ∃ s, state_at rng mb 0 3024 = some s ∧ Inv s ∧ loop_cond mb s = false ∧
      s.placed = 1 ∧ placedOf s.trace = [seed] := by
  obtain ⟨s, hs, hI, hP, hend⟩ := state_at_induct rng mb 0
    (fun t => t.placed = 1 ∧ placedOf t.trace = [seed])
    (fun s _ _ _ hp hpl _ => ⟨hp, hpl⟩)
    (fun a b _ hPa _ _ _ hR => by
      have hno : ¬ roll_ok rng 0 a := by
        unfold roll_ok
        omega
      obtain ⟨e1, e2, _⟩ := hR.reject hno
      exact ⟨by rw [e1]; exact hPa.1, by rw [e2]; exact hPa.2⟩)
    3024
  exact ⟨s, hs, hI, loop_cond_false_of_qh mb s hI hend, hP.1, hP.2⟩

/-- With a budget of at most 1 the loop body never runs: every `state_at` is the state
in which the loop is entered, with the seed as the only block. -/
theorem no_iteration (rng : Nat → Nat) (mb pp : Int) (hmb : mb ≤ 1) :
    ∃ s, main_init rng = some s ∧ (∀ n, state_at rng mb pp n = some s) ∧
      loop_cond mb s = false ∧ s.placed = 1 := by
  obtain ⟨s, hs, _, _, hp1, _⟩ := init_inv rng
  have hc : loop_cond mb s = false := by
    cases hlc : loop_cond mb s with
    | false => rfl
    | true =>
      have := ((loop_cond_iff mb s).1 hlc).2
      omega
  refine ⟨s, hs, ?_, hc, hp1⟩
  intro n
  unfold state_at
  rw [hs]
  exact growth_loop_done rng mb pp n s hc

/-- C13. Zero-probability run: for every random stream and every budget, with place
probability 0 the loop ends (within 3024 iterations) with the placement counter at 1, the
seed as the only placement, and the grid nonzero exactly on the 16 cells with
`5 ≤ row < 9` and `5 ≤ column < 9`. -/
theorem zero_probability_run (rng : Nat → Nat) (mb : Int) :
    ∃ s, state_at rng mb 0 3024 = some s ∧ loop_cond mb s = false ∧
      s.placed = 1 ∧ placedOf s.trace = [seed] ∧
      ∀ i j, s.A2 i j ≠ 0 ↔ (5 ≤ i ∧ i < 9) ∧ (5 ≤ j ∧ j < 9) := by
  obtain ⟨s, hs, hI, hc, hp, hpl⟩ := zero_prob_final rng mb
  refine ⟨s, hs, hc, hp, hpl, ?_⟩
  intro i j
  rw [hI.2.1.grid_iff, hpl, ← in_footprint_seed]
  constructor
  · rintro ⟨p, hp, hf⟩
    rw [List.mem_singleton.1 hp] at hf
    exact hf
  · intro hf
    exact ⟨seed, List.mem_singleton.2 rfl, hf⟩

theorem glyph_zero : glyph 0 = '#' := by decide

/-- C14. Single-block run: for every random stream and every probability, with
`max_blocks = 1` the loop body never runs; the counter printed in the header is 1, the
grid is nonzero exactly on the cells with `5 ≤ row < 9` and `5 ≤ column < 9`, each of them
holding the corresponding entry of the sampled stamp (a 4x4 window of the source pattern,
values 1..4), and every other cell is 0 and is printed as '#'. -/
theorem single_block_run (rng : Nat → Nat) (pp : Int) (seed0 : Nat) :
    ∃ s, (∀ n, state_at rng 1 pp n = some s) ∧ loop_cond 1 s = false ∧
      s.placed = 1 ∧
      print_all seed0 pp s = header_text seed0 1 pp ++ ['\n'] ++ print_map s.A2 ∧
      (∀ i j, (5 ≤ i ∧ i < 9) ∧ (5 ≤ j ∧ j < 9) →
        s.A2 i j = s.A3 (i - 5) (j - 5) ∧ 1 ≤ s.A2 i j ∧ s.A2 i j ≤ 4) ∧
      (∃ r0 c0, (0 ≤ r0 ∧ r0 ≤ 4) ∧ (0 ≤ c0 ∧ c0 ≤ 9) ∧
        ∀ r c, 0 ≤ r → r < 4 → 0 ≤ c → c < 4 → s.A3 r c = s.A1 (r0 + r) (c0 + c)) ∧
      (∀ i j, ¬ ((5 ≤ i ∧ i < 9) ∧ (5 ≤ j ∧ j < 9)) →
        s.A2 i j = 0 ∧ glyph (s.A2 i j) = '#') := by
  obtain ⟨s, hs, hgrid, r0, c0, hr0, hc0, hst⟩ := init_grid rng
  obtain ⟨s1, hs1, hall, hc1, hp1⟩ := no_iteration rng 1 pp (le_refl _)
  have he : s1 = s := by
    rw [hs] at hs1
    exact (Option.some.inj hs1).symm
  rw [he] at hp1 hall hc1
  refine ⟨s, hall, hc1, hp1, by unfold print_all; rw [hp1], ?_, ⟨r0, c0, hr0, hc0, ?_⟩, ?_⟩
  · intro i j hij
    have hf := (in_footprint_seed i j).2 hij
    have h3 := hst (i - 5) (j - 5) (by omega) (by omega) (by omega) (by omega)
    rw [hgrid, if_pos hf]
    exact ⟨rfl, h3.2⟩
  · intro r c h0 h1 h2 h3
    exact (hst r c h0 h1 h2 h3).1
  · intro i j hij
    have hf : ¬ in_footprint seed i j := fun h => hij ((in_footprint_seed i j).1 h)
    have h0 : s.A2 i j = 0 := by rw [hgrid, if_neg hf]
    exact ⟨h0, by rw [h0]; exact glyph_zero⟩

/-! ## Rendering -/

theorem digitChar_ne_newline (k : Nat) (h : k < 10) : Nat.digitChar k ≠ '\n' := by
  interval_cases k <;> decide

theorem toDigitsCore_no_newline :
    ∀ (fuel n : Nat) (acc : List Char), '\n' ∉ acc → '\n' ∉ Nat.toDigitsCore 10 fuel n acc := by
  intro fuel
  induction fuel with
  | zero => intro n acc h; exact h
  | succ k ih =>
    intro n acc h
    have hcons : '\n' ∉ Nat.digitChar (n % 10) :: acc := by
      intro hc
      rcases List.mem_cons.1 hc with h1 | h1
      · exact digitChar_ne_newline _ (Nat.mod_lt _ (by decide)) h1.symm
      · exact h h1
    simp only [Nat.toDigitsCore]
    split_ifs
    · exact hcons
    · exact ih _ _ hcons

theorem toString_nat_no_newline (n : Nat) : '\n' ∉ (toString n).toList := by
  show '\n' ∉ (Nat.repr n).toList
  unfold Nat.repr Nat.toDigits
  exact toDigitsCore_no_newline _ _ [] (List.not_mem_nil _)

theorem toString_int_no_newline (v : Int) : '\n' ∉ (toString v).toList := by
  cases v with
  | ofNat m => exact toString_nat_no_newline m
  | negSucc m =>
    show '\n' ∉ ("-" ++ toString (Nat.succ m)).toList
    intro hc
    rw [String.toList, String.data_append, List.mem_append] at hc
    rcases hc with h | h
    · revert h; decide
    · exact toString_nat_no_newline _ h

/-- The header is a single line: its text contains no newline. -/
theorem header_text_no_newline (seed0 : Nat) (placed pp : Int) :
    '\n' ∉ header_text seed0 placed pp := by
  unfold header_text
  intro hc
  simp only [String.toList, String.data_append, List.mem_append] at hc
  rcases hc with ((((((h | h) | h) | h) | h) | h) | h)
  · revert h; decide
  · exact toString_nat_no_newline _ h
  · revert h; decide
  · exact toString_int_no_newline _ h
  · revert h; decide
  · exact toString_int_no_newline _ h
  · revert h; decide

theorem length_upto (n : Int) : (upto n).length = n.toNat := by
  unfold upto
  simp

theorem glyph_cases (v : Int) (h : 0 ≤ v ∧ v ≤ 4) :
    (v = 0 ∧ glyph v = '#') ∨ (v = 1 ∧ glyph v = '.') ∨ (v = 2 ∧ glyph v = ',') ∨
      (v = 3 ∧ glyph v = ':') ∨ (v = 4 ∧ glyph v = ';') := by
  have hv : v = 0 ∨ v = 1 ∨ v = 2 ∨ v = 3 ∨ v = 4 := by omega
  rcases hv with rfl | rfl | rfl | rfl | rfl <;> decide

theorem print_row_length (g : Grid) (y : Int) : (print_row g y).length = 225 := by
  unfold print_row
  rw [List.length_map, length_upto]
  rfl

theorem mem_print_row (g : Grid) (y : Int) (ch : Char) :
    ch ∈ print_row g y ↔ ∃ x, 0 ≤ x ∧ x < 225 ∧ ch = glyph (g y x) := by
  unfold print_row
  simp only [List.mem_map, mem_upto, A2_N]
  constructor
  · rintro ⟨x, hx, rfl⟩
    exact ⟨x, hx.1, hx.2, rfl⟩
  · rintro ⟨x, h0, h1, rfl⟩
    exact ⟨x, ⟨h0, h1⟩, rfl⟩

theorem print_row_get (g : Grid) (y : Int) (x : Nat) (hx : x < (print_row g y).length) :
    (print_row g y).get ⟨x, hx⟩ = glyph (g y (x : Int)) := by
  unfold print_row upto
  simp

/-- Characters of a printed row when every cell holds a tile code 0..4. -/
theorem print_row_chars (g : Grid) (y : Int) (hg : ∀ x, 0 ≤ g y x ∧ g y x ≤ 4) :
    '\n' ∉ print_row g y ∧ '?' ∉ print_row g y := by
  constructor
  · intro hc
    obtain ⟨x, _, _, hx⟩ := (mem_print_row g y _).1 hc
    rcases glyph_cases (g y x) (hg x) with h | h | h | h | h <;>
      (rw [h.2] at hx; revert hx; decide)
  · intro hc
    obtain ⟨x, _, _, hx⟩ := (mem_print_row g y _).1 hc
    rcases glyph_cases (g y x) (hg x) with h | h | h | h | h <;>
      (rw [h.2] at hx; revert hx; decide)

/-- C15. Output shape of the batch variant: for every run the text written to standard
output is the header `# seed=<seed> blocks=<placed> prob=<percent>%` (a single line: it
contains no newline) followed by a newline and by 225 rows, each made of 225 characters and
a newline; the character for a cell of value `v` is '#', '.', ',', ':', ';' for
`v = 0, 1, 2, 3, 4`, every cell of the final grid holds such a value, and so neither the
fallback character '?' nor a stray newline occurs in a row. -/
theorem batch_output_shape (rng : Nat → Nat) (seed0 : Nat) (mb pp : Int) :
    ∃ s, state_at rng mb pp 3024 = some s ∧ loop_cond mb s = false ∧
      adungeon_stdout rng seed0 mb pp 3024 =
        some (header_text seed0 s.placed pp ++ ['\n'] ++
          (upto 225).flatMap fun y => print_row s.A2 y ++ ['\n']) ∧
      header_text seed0 s.placed pp =
        ("# seed=" ++ toString seed0 ++ " blocks=" ++ toString s.placed ++ " prob=" ++
          toString pp ++ "%").toList ∧
      '\n' ∉ header_text seed0 s.placed pp ∧
      (upto 225).length = 225 ∧
      ∀ y, 0 ≤ y → y < 225 →
        (print_row s.A2 y).length = 225 ∧
        '\n' ∉ print_row s.A2 y ∧ '?' ∉ print_row s.A2 y ∧
        ∀ (x : Nat) (hx : x < (print_row s.A2 y).length),
          (print_row s.A2 y).get ⟨x, hx⟩ = glyph (s.A2 y (x : Int)) ∧
          ((s.A2 y (x : Int) = 0 ∧ glyph (s.A2 y (x : Int)) = '#') ∨
            (s.A2 y (x : Int) = 1 ∧ glyph (s.A2 y (x : Int)) = '.') ∨
            (s.A2 y (x : Int) = 2 ∧ glyph (s.A2 y (x : Int)) = ',') ∨
            (s.A2 y (x : Int) = 3 ∧ glyph (s.A2 y (x : Int)) = ':') ∨
            (s.A2 y (x : Int) = 4 ∧ glyph (s.A2 y (x : Int)) = ';')) := by
  obtain ⟨s, hs, hI, hend⟩ := state_at_inv rng mb pp 3024
  have hG := hI.2.1
  refine ⟨s, hs, loop_cond_false_of_qh mb s hI hend, ?_, rfl,
    header_text_no_newline seed0 s.placed pp, ?_, ?_⟩
  · unfold adungeon_stdout
    rw [hs]
    rfl
  · rw [length_upto]
    rfl
  · intro y _ _
    have hch := print_row_chars s.A2 y (fun x => hG.grid_val y x)
    refine ⟨print_row_length s.A2 y, hch.1, hch.2, ?_⟩
    intro x hx
    exact ⟨print_row_get s.A2 y x hx, glyph_cases _ (hG.grid_val y (x : Int))⟩

/-! ## The adjacency gate and the footprint of a popped entry -/

/-- In a state that satisfies the invariant every entry of the unprocessed range passes
the adjacency test, because it has a completely filled neighbouring block. -/
theorem queue_touches (s : St) (hI : Inv s) (p : Pos) (hp : p ∈ queue s) :
    touches_existing s.A2 p.x p.y = some 1 ∧
      ∃ q ∈ placedOf s.trace, is_nbr q p ∧ region_full s.A2 q := by
  obtain ⟨hQ, hG, hL, _⟩ := hI
  have hpu := (hQ.mem_queue_fresh p hp).1
  obtain ⟨q, hq, hn⟩ := hL.nbr p hpu
  have hfull : ∀ i j, in_footprint q i j → s.A2 i j ≠ 0 :=
    fun i j hf => (hG.grid_iff i j).2 ⟨q, hq, hf⟩
  exact ⟨touches_one s.A2 p q (hQ.lat p hpu).1 (hG.placed_lat q hq) hn hfull,
    q, hq, hn, (region_full_iff s.A2 q).2 hfull⟩

/-- The footprint of the entry chosen by an iteration is still empty. -/
theorem cur_of_empty (rng : Nat → Nat) (s : St) (hI : Inv s) (hlt : s.qh < s.qt) :
    ∀ i j, in_footprint (cur_of rng s) i j → s.A2 i j = 0 := by
  obtain ⟨_, _, hl, _, hnp, _⟩ := cur_of_fresh rng s hI hlt
  have h := (hI.2.1.region s _ hl).2 hnp
  rw [region_empty_iff] at h
  exact h

/-- An iteration whose roll succeeds goes on to `grow` in the state `at_place`. -/
theorem loop_body_accept (rng : Nat → Nat) (pp : Int) (s : St) (hI : Inv s)
    (hlt : s.qh < s.qt) (hok : roll_ok rng pp s) :
    loop_body rng pp s = grow rng (at_place rng s) (cur_of rng s) := by
  have hQ := hI.1
  have hqt := hQ.qt_le
  have hq0 := hQ.qh_nonneg
  have hpop := pop_eq { s with rc := s.rc + 1 } (rng s.rc : Int) (by omega) hlt hq0
    (by simp only [FRONT_CAP]; omega)
  obtain ⟨hcq, _⟩ := cur_of_fresh rng s hI hlt
  have ht : touches_existing s.A2 (cur_of rng s).x (cur_of rng s).y = some 1 :=
    (queue_touches s hI _ hcq).1
  have hroll : Int.tmod (rng (s.rc + 1) : Int) 100 = (rng (s.rc + 1) : Int) % 100 :=
    Int.tmod_eq_emod (by omega) (by omega)
  unfold roll_ok at hok
  unfold loop_body
  simp only [rand]
  rw [hpop]
  show gate rng pp (pop_ok { s with rc := s.rc + 1 } ((rng s.rc : Int) % (s.qt - s.qh)))
    (cur_of rng s) = _
  unfold gate
  simp only [rand]
  have hrc : (pop_ok { s with rc := s.rc + 1 } ((rng s.rc : Int) % (s.qt - s.qh))).rc =
      s.rc + 1 := rfl
  have hA2 : (pop_ok { s with rc := s.rc + 1 } ((rng s.rc : Int) % (s.qt - s.qh))).A2 =
      s.A2 := rfl
  rw [hrc, hroll, if_pos hok]
  simp only [hA2, ht]
  rw [if_pos (by decide)]
  rfl

/-- An iteration whose roll fails only consumes the entry and the two draws. -/
theorem loop_body_reject (rng : Nat → Nat) (pp : Int) (s : St) (hI : Inv s)
    (hlt : s.qh < s.qt) (hno : ¬ roll_ok rng pp s) :
    loop_body rng pp s =
      some { pop_ok { s with rc := s.rc + 1 } ((rng s.rc : Int) % (s.qt - s.qh)) with
        rc := s.rc + 2 } := by
  have hQ := hI.1
  have hqt := hQ.qt_le
  have hq0 := hQ.qh_nonneg
  have hpop := pop_eq { s with rc := s.rc + 1 } (rng s.rc : Int) (by omega) hlt hq0
    (by simp only [FRONT_CAP]; omega)
  have hroll : Int.tmod (rng (s.rc + 1) : Int) 100 = (rng (s.rc + 1) : Int) % 100 :=
    Int.tmod_eq_emod (by omega) (by omega)
  unfold roll_ok at hno
  unfold loop_body
  simp only [rand]
  rw [hpop]
  show gate rng pp (pop_ok { s with rc := s.rc + 1 } ((rng s.rc : Int) % (s.qt - s.qh)))
    (cur_of rng s) = _
  unfold gate
  simp only [rand]
  have hrc : (pop_ok { s with rc := s.rc + 1 } ((rng s.rc : Int) % (s.qt - s.qh))).rc =
      s.rc + 1 := rfl
  rw [hrc, hroll, if_neg hno]

/-- After an accepted iteration the footprint of the placed entry holds the whole stamp. -/
theorem grow_copies_stamp (rng : Nat → Nat) (s : St) (cur : Pos) (s2 : St)
    (hl : on_lattice cur) (h0 : ∀ i j, in_footprint cur i j → s.A2 i j = 0)
    (hg : grow rng s cur = some s2) :
    s2.A3 = (sample_A3_from_A1 rng s).A3 ∧
      ∀ i j, in_footprint cur i j → s2.A2 i j = s2.A3 (i - cur.y) (j - cur.x) := by
  have hl2 := hl
  unfold on_lattice at hl2
  obtain ⟨g2, hp, hspec⟩ := place_at_eq rng s cur (by omega) (by omega) (by omega) (by omega)
  unfold grow at hg
  rw [hp, Option.some_bind] at hg
  obtain ⟨e3, e2⟩ := push4_grids _ _ _ _ _ s2 hg
  have e3b : s2.A3 = (sample_A3_from_A1 rng s).A3 := e3
  have e2b : s2.A2 = g2 := e2
  refine ⟨e3b, ?_⟩
  intro i j hf
  rw [e2b, e3b, hspec, if_pos ⟨h0 i j hf, hf⟩]

/-- C19. The adjacency gate is redundant: at every loop-head state of every run each entry
of the unprocessed range `[qh, qt)` passes `touches_existing` (it has a lattice neighbour
whose block fills all 16 cells); hence, when the loop runs another iteration, the entry it
pops (an entry of that range) is placed exactly when its roll `draw mod 100` is below
`place_prob`, and is discarded with grid and counter unchanged otherwise. -/
theorem adjacency_gate_redundant (rng : Nat → Nat) (mb pp : Int) (n : Nat) :
    ∃ s, state_at rng mb pp n = some s ∧
      (∀ p ∈ queue s, touches_existing s.A2 p.x p.y = some 1 ∧
        ∃ q ∈ placedOf s.trace, is_nbr q p ∧ region_full s.A2 q) ∧
      (loop_cond mb s = true →
        cur_of rng s ∈ queue s ∧
        ∃ s2, loop_body rng pp s = some s2 ∧
          poppedOf s2.trace = cur_of rng s :: poppedOf s.trace ∧
          ((rng (s.rc + 1) : Int) % 100 < pp ↔
            placedOf s2.trace = cur_of rng s :: placedOf s.trace) ∧
          ((rng (s.rc + 1) : Int) % 100 < pp ↔ s2.placed = s.placed + 1) ∧
          (¬ (rng (s.rc + 1) : Int) % 100 < pp →
            placedOf s2.trace = placedOf s.trace ∧ s2.placed = s.placed ∧ s2.A2 = s.A2)) := by
  obtain ⟨s, hs, hI, _⟩ := state_at_inv rng mb pp n
  refine ⟨s, hs, fun p hp => queue_touches s hI p hp, ?_⟩
  intro hc
  have hlt := ((loop_cond_iff mb s).1 hc).1
  obtain ⟨s2, hb, _, hR⟩ := body_inv rng pp s hI hlt
  obtain ⟨hcq, _, _, _, hnp, _⟩ := cur_of_fresh rng s hI hlt
  have hacc : roll_ok rng pp s → s2.placed = s.placed + 1 ∧
      placedOf s2.trace = cur_of rng s :: placedOf s.trace :=
    fun h => ⟨(hR.accept h).1, (hR.accept h).2.1⟩
  have hrej : ¬ roll_ok rng pp s → s2.placed = s.placed ∧
      placedOf s2.trace = placedOf s.trace ∧ s2.A2 = s.A2 :=
    fun h => ⟨(hR.reject h).1, (hR.reject h).2.1, (hR.reject h).2.2.2.2.1⟩
  refine ⟨hcq, s2, hb, hR.popped, ?_, ?_, ?_⟩
  · constructor
    · exact fun h => (hacc h).2
    · intro h
      by_contra hno
      have h2 := (hrej hno).2.1
      rw [h] at h2
      exact List.cons_ne_self _ _ h2
  · constructor
    · exact fun h => (hacc h).1
    · intro h
      by_contra hno
      have h2 := (hrej hno).1
      omega
  · intro hno
    exact ⟨(hrej hno).2.1, (hrej hno).1, (hrej hno).2.2⟩

/-- The footprint scan of `touches_existing` finds nothing on an empty footprint. -/
theorem scan_footprint_empty (g : Grid) (p : Pos) (hl : on_lattice p)
    (h0 : ∀ i j, in_footprint p i j → g i j = 0) :
    scan_nonzero g ((loop_rc TILE TILE).map fun rc => (p.y + rc.1, p.x + rc.2)) =
      some false := by
  have hl2 := hl
  unfold on_lattice at hl2
  obtain ⟨b, hb, hiff⟩ := scan_footprint g p.x p.y (by omega) (by omega) (by omega) (by omega)
  rw [hb]
  cases b with
  | false => rfl
  | true =>
    obtain ⟨r, c, hr0, hr1, hc0, hc1, hne⟩ := hiff.1 rfl
    exact absurd (h0 _ _ (by unfold in_footprint; omega)) hne

/-- C20. Placements never overlap: the seed is placed by `place_at` on an all-zero grid,
after which its footprint holds the whole stamp; and at every loop-head state of every run
in which the loop goes on, all 16 cells of the footprint of the entry about to be popped
are zero, so the footprint scan of `touches_existing` does not fire for it, and if its roll
succeeds `place_block` is called (through `grow`, in a state with the same grid) on that
empty footprint and copies the whole stamp: no cell is skipped by the only-when-zero
guard. -/
theorem placements_never_overlap (rng : Nat → Nat) (mb pp : Int) :
    (∃ s0 : St, (∀ i j, s0.A2 i j = 0) ∧
      main_init rng = (place_at rng s0 seed).bind fun s4 =>
        (if idx s4 5 5 ≥ 0 then wrSeen s4 (idx s4 5 5) 1 else some s4).bind fun s5 =>
        push4 s5 ⟨5 + TILE, 5⟩ ⟨5, 5 + TILE⟩ ⟨5 - TILE, 5⟩ ⟨5, 5 - TILE⟩) ∧
    (∃ s, main_init rng = some s ∧
      ∀ i j, in_footprint seed i j → s.A2 i j = s.A3 (i - seed.y) (j - seed.x)) ∧
    (∀ n, ∃ s, state_at rng mb pp n = some s ∧
      (loop_cond mb s = true →
        (∀ i j, in_footprint (cur_of rng s) i j → s.A2 i j = 0) ∧
        scan_nonzero s.A2 ((loop_rc TILE TILE).map fun rc =>
          ((cur_of rng s).y + rc.1, (cur_of rng s).x + rc.2)) = some false ∧
        ((rng (s.rc + 1) : Int) % 100 < pp →
          (at_place rng s).A2 = s.A2 ∧
          loop_body rng pp s = grow rng (at_place rng s) (cur_of rng s) ∧
          ∃ s2, loop_body rng pp s = some s2 ∧
            ∀ i j, in_footprint (cur_of rng s) i j →
              s2.A2 i j = s2.A3 (i - (cur_of rng s).y) (j - (cur_of rng s).x)))) := by
  refine ⟨?_, ?_, ?_⟩
  · obtain ⟨F, k, hF, _⟩ := gen_A1_eq rng St.zero
    refine ⟨pre_seed F k, fun _ _ => rfl, ?_⟩
    unfold main_init
    simp only [hF]
    rfl
  · obtain ⟨s, hs, hgrid, _⟩ := init_grid rng
    refine ⟨s, hs, ?_⟩
    intro i j hf
    rw [hgrid, if_pos hf]
    rfl
  · intro n
    obtain ⟨s, hs, hI, _⟩ := state_at_inv rng mb pp n
    refine ⟨s, hs, ?_⟩
    intro hc
    have hlt := ((loop_cond_iff mb s).1 hc).1
    have h0 := cur_of_empty rng s hI hlt
    obtain ⟨_, _, hl, _, _, _⟩ := cur_of_fresh rng s hI hlt
    refine ⟨h0, scan_footprint_empty s.A2 _ hl h0, ?_⟩
    intro hok
    have hbody := loop_body_accept rng pp s hI hlt hok
    obtain ⟨s2, hb, _, _⟩ := body_inv rng pp s hI hlt
    refine ⟨rfl, hbody, s2, hb, ?_⟩
    rw [hbody] at hb
    exact (grow_copies_stamp rng (at_place rng s) (cur_of rng s) s2 hl h0 hb).2

/-! ## Argument and prompt handling -/

theorem clamp_range (v lo hi : Int) (h : lo ≤ hi) : lo ≤ clamp v lo hi ∧ clamp v lo hi ≤ hi := by
  unfold clamp
  split_ifs <;> omega

theorem clampi_range (v lo hi : Int) (h : lo ≤ hi) :
    lo ≤ clampi v lo hi ∧ clampi v lo hi ≤ hi := by
  unfold clampi
  split_ifs <;> omega

/-- The part of the sanitisation that both variants perform: the probability handed to the
growth loop lies in [0, 100] and is the clamped input; and the part that only the
interactive variant performs: its budget is at least 1, a non-positive input being
replaced by 1200. -/
theorem sanitised_params (budget prob : Int) :
    (0 ≤ batch_place_prob (some prob) ∧ batch_place_prob (some prob) ≤ 100 ∧
      batch_place_prob (some prob) = clamp prob 0 100) ∧
    (0 ≤ interactive_place_prob (some prob) ∧ interactive_place_prob (some prob) ≤ 100 ∧
      interactive_place_prob (some prob) = clampi prob 0 100) ∧
    (1 ≤ interactive_max_blocks (some budget) ∧
      (budget ≤ 0 → interactive_max_blocks (some budget) = 1200) ∧
      (0 < budget → interactive_max_blocks (some budget) = budget)) ∧
    batch_max_blocks (some budget) = budget := by
  have h1 := clamp_range prob 0 100 (by decide)
  have h2 := clampi_range prob 0 100 (by decide)
  refine ⟨⟨h1.1, h1.2, rfl⟩, ⟨h2.1, h2.2, rfl⟩, ⟨?_, ?_, ?_⟩, rfl⟩
  · unfold interactive_max_blocks
    simp only
    split_ifs <;> omega
  · intro hb
    unfold interactive_max_blocks
    simp only
    rw [if_neg (by omega)]
  · intro hb
    unfold interactive_max_blocks
    simp only
    rw [if_pos (by omega)]

/-- C16 (defect in the batch variant). With the budget argument `0` the batch variant
hands `max_blocks = 0` to the growth loop, where the interactive variant substitutes 1200
for the same input; the run then ends with `placed = 1`, above the budget. -/
theorem batch_budget_not_sanitised (rng : Nat → Nat) (pp : Int) :
    batch_max_blocks (some 0) = 0 ∧ ¬ (1 ≤ batch_max_blocks (some 0)) ∧
    batch_max_blocks (some 0) ≠ 1200 ∧ interactive_max_blocks (some 0) = 1200 ∧
    ∃ s, state_at rng (batch_max_blocks (some 0)) pp 3024 = some s ∧
      loop_cond (batch_max_blocks (some 0)) s = false ∧ s.placed = 1 ∧
      ¬ (s.placed ≤ batch_max_blocks (some 0)) := by
  refine ⟨rfl, by decide, by decide, by decide, ?_⟩
  obtain ⟨s, _, hall, hc, hp⟩ := no_iteration rng (batch_max_blocks (some 0)) pp (by decide)
  refine ⟨s, hall 3024, hc, hp, ?_⟩
  rw [hp]
  decide

/-- C17 (defect). When the probability line is empty or non-numeric, so that `atoi` yields
0, the interactive variant generates with place probability 0, not with the default 70
that its prompt shows (70 is kept only when no line could be read); the budget prompt does
fall back to 1200.  With probability 0 the run places nothing but the seed block. -/
theorem empty_probability_line_gives_zero (rng : Nat → Nat) (mb : Int) :
    interactive_place_prob (some 0) = 0 ∧ interactive_place_prob (some 0) ≠ 70 ∧
    interactive_place_prob none = 70 ∧ interactive_max_blocks (some 0) = 1200 ∧
    ∃ s, state_at rng mb (interactive_place_prob (some 0)) 3024 = some s ∧
      loop_cond mb s = false ∧ s.placed = 1 := by
  refine ⟨by decide, by decide, rfl, by decide, ?_⟩
  have e : interactive_place_prob (some 0) = 0 := by decide
  rw [e]
  obtain ⟨s, hs, _, hc, hp, _⟩ := zero_prob_final rng mb
  exact ⟨s, hs, hc, hp⟩

/-! ## The file written by the interactive variant -/

theorem file_char_cases (v : Int) (h : 0 ≤ v ∧ v ≤ 4) :
    (v = 0 ∧ file_char v = '#') ∨ (v = 1 ∧ file_char v = '1') ∨ (v = 2 ∧ file_char v = '2') ∨
      (v = 3 ∧ file_char v = '3') ∨ (v = 4 ∧ file_char v = '4') := by
  have hv : v = 0 ∨ v = 1 ∨ v = 2 ∨ v = 3 ∨ v = 4 := by omega
  rcases hv with rfl | rfl | rfl | rfl | rfl <;> decide

theorem flush_row_length (g : Grid) (y : Int) : (flush_row g y).length = 225 := by
  unfold flush_row
  rw [List.length_map, length_upto]
  rfl

theorem mem_flush_row (g : Grid) (y : Int) (ch : Char) :
    ch ∈ flush_row g y ↔ ∃ x, 0 ≤ x ∧ x < 225 ∧ ch = file_char (g y x) := by
  unfold flush_row
  simp only [List.mem_map, mem_upto, A2_N]
  constructor
  · rintro ⟨x, hx, rfl⟩
    exact ⟨x, hx.1, hx.2, rfl⟩
  · rintro ⟨x, h0, h1, rfl⟩
    exact ⟨x, ⟨h0, h1⟩, rfl⟩

theorem flush_row_get (g : Grid) (y : Int) (x : Nat) (hx : x < (flush_row g y).length) :
    (flush_row g y).get ⟨x, hx⟩ = file_char (g y (x : Int)) := by
  unfold flush_row upto
  simp

/-- The cells above and to the left of the lattice are never written. -/
theorem GInv.margin_zero (s : St) (hG : GInv s) (i j : Int)
    (hij : (0 ≤ i ∧ i ≤ 4) ∨ (0 ≤ j ∧ j ≤ 4)) : s.A2 i j = 0 := by
  by_contra hne
  obtain ⟨q, hq, hf⟩ := (hG.grid_iff i j).1 hne
  have hl := hG.placed_lat q hq
  unfold on_lattice at hl
  unfold in_footprint at hf
  omega

/-- C18 as stated fails: in the final grid of the run with the constant random stream,
budget 1 and probability 70 the cell `[0][0]` is empty, and the first character of the
first row of the file body is '#', which is none of '0'..'4'. -/
theorem file_body_wall_counterexample :
    ∃ s, state_at rng_const 1 70 3024 = some s ∧ loop_cond 1 s = false ∧
      s.A2 0 0 = 0 ∧
      (∃ h : 0 < (flush_row s.A2 0).length, (flush_row s.A2 0).get ⟨0, h⟩ = '#') ∧
      ¬ (∀ ch ∈ flush_row s.A2 0,
        ch = '0' ∨ ch = '1' ∨ ch = '2' ∨ ch = '3' ∨ ch = '4') ∧
      file_char 0 = '#' ∧ file_char 0 ≠ '0' := by
  obtain ⟨s, hs, hI, hend⟩ := state_at_inv rng_const 1 70 3024
  have h00 : s.A2 0 0 = 0 := hI.2.1.margin_zero s 0 0 (Or.inl (by decide))
  have hlen : 0 < (flush_row s.A2 0).length := by
    rw [flush_row_length]
    decide
  have hget : (flush_row s.A2 0).get ⟨0, hlen⟩ = '#' := by
    rw [flush_row_get]
    show file_char (s.A2 0 0) = '#'
    rw [h00]
    decide
  refine ⟨s, hs, loop_cond_false_of_qh 1 s hI hend, h00, ⟨hlen, hget⟩, ?_, by decide,
    by decide⟩
  intro hall
  have hm : '#' ∈ flush_row s.A2 0 := by
    rw [← hget]
    exact List.get_mem _ _ _
  have := hall _ hm
  revert this
  decide

/-- C18 (amended). For every run, when the file can be opened `flush_to_file` writes the
header line followed by 225 rows of 225 characters, each row ended by a newline; the
character for a cell is '#' for an empty cell (value 0) and the digit '1'..'4' for the tile
values 1..4, and every cell of the final grid holds such a value. -/
theorem file_output_shape (rng : Nat → Nat) (seed0 : Nat) (mb pp : Int) :
    ∃ s, state_at rng mb pp 3024 = some s ∧ loop_cond mb s = false ∧
      flush_to_file true seed0 s.placed pp s.A2 =
        some (header_text seed0 s.placed pp ++ ['\n'] ++
          (upto 225).flatMap fun y => flush_row s.A2 y ++ ['\n']) ∧
      '\n' ∉ header_text seed0 s.placed pp ∧
      (upto 225).length = 225 ∧
      ∀ y, 0 ≤ y → y < 225 →
        (flush_row s.A2 y).length = 225 ∧ '\n' ∉ flush_row s.A2 y ∧
        ∀ (x : Nat) (hx : x < (flush_row s.A2 y).length),
          (flush_row s.A2 y).get ⟨x, hx⟩ = file_char (s.A2 y (x : Int)) ∧
          ((s.A2 y (x : Int) = 0 ∧ file_char (s.A2 y (x : Int)) = '#') ∨
            (s.A2 y (x : Int) = 1 ∧ file_char (s.A2 y (x : Int)) = '1') ∨
            (s.A2 y (x : Int) = 2 ∧ file_char (s.A2 y (x : Int)) = '2') ∨
            (s.A2 y (x : Int) = 3 ∧ file_char (s.A2 y (x : Int)) = '3') ∨
            (s.A2 y (x : Int) = 4 ∧ file_char (s.A2 y (x : Int)) = '4')) := by
  obtain ⟨s, hs, hI, hend⟩ := state_at_inv rng mb pp 3024
  have hG := hI.2.1
  refine ⟨s, hs, loop_cond_false_of_qh mb s hI hend, rfl,
    header_text_no_newline seed0 s.placed pp, ?_, ?_⟩
  · rw [length_upto]
    rfl
  · intro y _ _
    refine ⟨flush_row_length s.A2 y, ?_, ?_⟩
    · intro hc
      obtain ⟨x, _, _, hx⟩ := (mem_flush_row s.A2 y _).1 hc
      rcases file_char_cases (s.A2 y x) (hG.grid_val y x) with h | h | h | h | h <;>
        (rw [h.2] at hx; revert hx; decide)
    · intro x hx
      exact ⟨flush_row_get s.A2 y x hx, file_char_cases _ (hG.grid_val y (x : Int))⟩

end ADungeon
